import Mathlib

/-!
# Verification of the chromium-daily-digest LLM orchestration engine

This file gives a shallow embedding, in Lean 4, of the core of the
`chromium-daily-digest` repository: the LLM orchestration strategy
(`generateSummaryWithStrategy` in `src/services/llmService.ts`), the tool
executor (`executeToolCalls`), the detail fetcher batching
(`fetchMultipleCommitDetails` in `src/services/commitDetailService.ts`),
the retry wrapper (`generateContentWithRetry` in the Gemini/Nexos service
files), the phased candidate extraction (`executePhasedAnalysis`), the
Nexos streaming tool-call accumulator, and the adapter message handling
of the Gemini and Nexos platform adapters.

External boundaries (the remote model, the network fetch of one commit,
`JSON.stringify`, and the prompt template builders) are modelled as
parameters of the embedding; everything the repository itself computes is
translated directly from the TypeScript source.  `JSON.parse` is modelled
by a small executable JSON parser over a JSON value type (numbers are
modelled as integers, which suffices for every input considered here).
-/

namespace ChromiumDigest

/-! ## Basic character / string utilities (JS semantics)

The TypeScript code uses `String.prototype.trim`, `toLowerCase`,
`includes`, `split('\n')`, and the regexes `/^[\s\-\*]+/` and
`/^[a-f0-9]{40}$/i`.  We model these on `List Char` / `String` for the
ASCII inputs that occur.
-/

/-- JS whitespace (the ASCII part of `\s` and of `trim`). -/
def isJsSpace (c : Char) : Bool :=
  c = ' ' || c = '\t' || c = '\n' || c = '\r' ||
  c = Char.ofNat 11 || c = Char.ofNat 12

/-- A character matched by the leading-marker regex `/^[\s\-\*]+/`. -/
def isMarkerChar (c : Char) : Bool :=
  isJsSpace c || c = '-' || c = '*'

/-- A character matched by `/[a-f0-9]/i`. -/
def isHexDigitChar (c : Char) : Bool :=
  (48 ≤ c.toNat && c.toNat ≤ 57) ||
  (97 ≤ c.toNat && c.toNat ≤ 102) ||
  (65 ≤ c.toNat && c.toNat ≤ 70)

/-- ASCII lower-casing of one character (JS `toLowerCase` on ASCII). -/
def lowerChar (c : Char) : Char :=
  if 65 ≤ c.toNat && c.toNat ≤ 90 then Char.ofNat (c.toNat + 32) else c

/-- Drop trailing JS whitespace. -/
def dropTrailingSpace (cs : List Char) : List Char :=
  (cs.reverse.dropWhile isJsSpace).reverse

/-- JS `String.prototype.trim` on a character list. -/
def jsTrimL (cs : List Char) : List Char :=
  dropTrailingSpace (cs.dropWhile isJsSpace)

/-- JS `String.prototype.trim`. -/
def jsTrim (s : String) : String :=
  String.mk (jsTrimL s.toList)

/-- Does `hay` start with `needle`? -/
def beginsWith : List Char → List Char → Bool
  | [], _ => true
  | _ :: _, [] => false
  | n :: ns, h :: hs => n = h && beginsWith ns hs

/-- JS `String.prototype.includes` on character lists. -/
def containsSeq (needle : List Char) : List Char → Bool
  | [] => beginsWith needle []
  | h :: hs => beginsWith needle (h :: hs) || containsSeq needle hs

/-- JS `line.toLowerCase()` (ASCII). -/
def lowerStr (s : String) : String :=
  String.mk (s.toList.map lowerChar)

/-- `line.replace(/^[\s\-\*]+/, '').trim()` from `executePhasedAnalysis`. -/
def stripLine (s : String) : String :=
  String.mk (jsTrimL (s.toList.dropWhile isMarkerChar))

/-- The regex test `/^[a-f0-9]{40}$/i.test(s)`. -/
def isHex40 (s : String) : Bool :=
  s.toList.length = 40 && s.toList.all isHexDigitChar

/-- Split a character list on a separator character (JS
`String.prototype.split` with a one-character separator). -/
def splitCharList (sep : Char) : List Char → List (List Char)
  | [] => [[]]
  | c :: cs =>
    if c = sep then [] :: splitCharList sep cs
    else
      match splitCharList sep cs with
      | [] => [[c]]
      | first :: rest => (c :: first) :: rest

/-- JS `content.split('\n')`. -/
def splitLines (s : String) : List String :=
  (splitCharList '\n' s.toList).map String.mk

/-- The candidate-extraction pipeline of `executePhasedAnalysis`
(`src/unnamed/part_000`, lines 834-838): split the phase-1 response into
lines, drop blank lines and lines containing `no potential`
(case-insensitively), strip leading whitespace / list markers and trim,
and keep exactly the 40-character hexadecimal strings. -/
def extractCandidates (content : String) : List String :=
  (((splitLines content).filter
      (fun line => jsTrim line ≠ "" && !containsSeq "no potential".toList (lowerStr line).toList)).map
    stripLine).filter isHex40

/-! ## Chunking (`generateSummaryWithStrategy`, llmService.ts lines 641-644)

The source splits `commits` with
`for (let i = 0; i < commits.length; i += CHUNK_SIZE) chunks.push(commits.slice(i, i + CHUNK_SIZE))`.
We embed this as a fuel-structured recursion (the fuel `l.length` is
always sufficient for a positive chunk size).
-/

def chunksOfAux (n : Nat) : Nat → List α → List (List α)
  | _, [] => []
  | 0, _ => []
  | fuel + 1, l => l.take n :: chunksOfAux n fuel (l.drop n)

/-- Split a list into consecutive chunks of size `n` (the last chunk may be
shorter), exactly as the chunking loop of the strategy does. -/
def chunksOf (n : Nat) (l : List α) : List (List α) :=
  chunksOfAux n l.length l

/-! ## JSON values and `JSON.parse`

The final step of the strategy is `JSON.parse(finalResponse.content) as
StructuredSummary`.  `JSON.parse` either throws a `SyntaxError` (invalid
JSON) or returns the parsed value; the `as` cast performs **no** runtime
validation.  We model JSON values with numeric literals kept as their
source text (their numeric value is never inspected by this code), and
give an executable parser: `jsonParse s = none` models a thrown
`SyntaxError`, `jsonParse s = some v` models a successful parse.
-/

inductive Js where
  | null : Js
  | bool (b : Bool) : Js
  | num (lit : String) : Js
  | str (s : String) : Js
  | arr (xs : List Js) : Js
  | obj (fields : List (String × Js)) : Js

/-- JSON insignificant whitespace (space, tab, line feed, carriage return). -/
def isJsonWs (c : Char) : Bool :=
  c = ' ' || c = '\t' || c = '\n' || c = '\r'

def skipWs (cs : List Char) : List Char :=
  cs.dropWhile isJsonWs

/-- Scan the body of a JSON string literal after the opening quote,
returning the decoded characters and the remaining input after the
closing quote. -/
def scanString : List Char → Option (List Char × List Char)
  | [] => none
  | c :: cs =>
    if c = '"' then some ([], cs)
    else if c = '\\' then
      match cs with
      | [] => none
      | e :: cs' =>
        let simpleEsc : Option Char :=
          if e = '"' then some '"'
          else if e = '\\' then some '\\'
          else if e = '/' then some '/'
          else if e = 'b' then some (Char.ofNat 8)
          else if e = 'f' then some (Char.ofNat 12)
          else if e = 'n' then some '\n'
          else if e = 'r' then some '\r'
          else if e = 't' then some '\t'
          else none
        match simpleEsc with
        | some d =>
          match scanString cs' with
          | some (body, rest) => some (d :: body, rest)
          | none => none
        | none =>
          if e = 'u' then
            match cs' with
            | h1 :: h2 :: h3 :: h4 :: cs'' =>
              if isHexDigitChar h1 && isHexDigitChar h2 && isHexDigitChar h3 && isHexDigitChar h4 then
                let hv : Char → Nat := fun c =>
                  if c.toNat ≤ 57 then c.toNat - 48
                  else if c.toNat ≤ 70 then c.toNat - 55
                  else c.toNat - 87
                let code := ((hv h1 * 16 + hv h2) * 16 + hv h3) * 16 + hv h4
                match scanString cs'' with
                | some (body, rest) => some (Char.ofNat code :: body, rest)
                | none => none
              else none
            | _ => none
          else none
    else if c.toNat < 32 then none
    else
      match scanString cs with
      | some (body, rest) => some (c :: body, rest)
      | none => none

/-- Scan a JSON number literal (`-? (0 | [1-9][0-9]*) frac? exp?`),
returning its source text and the remaining input. -/
def scanNumber (cs : List Char) : Option (List Char × List Char) :=
  let isDig : Char → Bool := fun c => 48 ≤ c.toNat && c.toNat ≤ 57
  let (sign, cs₁) :=
    match cs with
    | '-' :: rest => ([('-' : Char)], rest)
    | _ => ([], cs)
  match cs₁ with
  | [] => none
  | d :: rest =>
    if !isDig d then none
    else
      let (intPart, cs₂) :=
        if d = '0' then ([d], rest)
        else (d :: rest.takeWhile isDig, rest.dropWhile isDig)
      let (fracPart, cs₃) :=
        match cs₂ with
        | '.' :: f :: more =>
          if isDig f then
            (('.' : Char) :: f :: more.takeWhile isDig, more.dropWhile isDig)
          else ([], cs₂)
        | _ => ([], cs₂)
      if fracPart = [] && (match cs₂ with | '.' :: _ => true | _ => false) then none
      else
        let expRes : Option (List Char × List Char) :=
          match cs₃ with
          | e :: more =>
            if e = 'e' || e = 'E' then
              let (esign, more₁) :=
                match more with
                | s :: m => if s = '+' || s = '-' then ([s], m) else ([], more)
                | [] => ([], more)
              match more₁ with
              | x :: m =>
                if isDig x then some (e :: (esign ++ x :: m.takeWhile isDig), m.dropWhile isDig)
                else none
              | [] => none
            else some ([], cs₃)
          | [] => some ([], cs₃)
        match expRes with
        | none => none
        | some (expPart, cs₄) => some (sign ++ intPart ++ fracPart ++ expPart, cs₄)

mutual

/-- Parse one JSON value (after the caller has not yet skipped whitespace). -/
def parseVal : Nat → List Char → Option (Js × List Char)
  | 0, _ => none
  | fuel + 1, cs =>
    match skipWs cs with
    | [] => none
    | c :: rest =>
      if c = '{' then parseObjBody fuel rest
      else if c = '[' then parseArrBody fuel rest
      else if c = '"' then
        match scanString rest with
        | some (body, rem) => some (.str (String.mk body), rem)
        | none => none
      else if c = 't' then
        match rest with
        | 'r' :: 'u' :: 'e' :: rem => some (.bool true, rem)
        | _ => none
      else if c = 'f' then
        match rest with
        | 'a' :: 'l' :: 's' :: 'e' :: rem => some (.bool false, rem)
        | _ => none
      else if c = 'n' then
        match rest with
        | 'u' :: 'l' :: 'l' :: rem => some (.null, rem)
        | _ => none
      else
        match scanNumber (c :: rest) with
        | some (lit, rem) => some (.num (String.mk lit), rem)
        | none => none

/-- Parse an object body after the opening `{`. -/
def parseObjBody : Nat → List Char → Option (Js × List Char)
  | 0, _ => none
  | fuel + 1, cs =>
    match skipWs cs with
    | '}' :: rem => some (.obj [], rem)
    | '"' :: rest =>
      match scanString rest with
      | some (key, rem₁) =>
        (match skipWs rem₁ with
         | ':' :: rem₂ =>
           match parseVal fuel rem₂ with
           | some (v, rem₃) => parseObjRest fuel [(String.mk key, v)] rem₃
           | none => none
         | _ => none)
      | none => none
    | _ => none

/-- Parse the continuation of an object body (`, "k": v ... }`). -/
def parseObjRest : Nat → List (String × Js) → List Char → Option (Js × List Char)
  | 0, _, _ => none
  | fuel + 1, acc, cs =>
    match skipWs cs with
    | '}' :: rem => some (.obj acc.reverse, rem)
    | ',' :: rest =>
      (match skipWs rest with
       | '"' :: rest' =>
         match scanString rest' with
         | some (key, rem₁) =>
           (match skipWs rem₁ with
            | ':' :: rem₂ =>
              match parseVal fuel rem₂ with
              | some (v, rem₃) => parseObjRest fuel ((String.mk key, v) :: acc) rem₃
              | none => none
            | _ => none)
         | none => none
       | _ => none)
    | _ => none

/-- Parse an array body after the opening `[`. -/
def parseArrBody : Nat → List Char → Option (Js × List Char)
  | 0, _ => none
  | fuel + 1, cs =>
    match skipWs cs with
    | ']' :: rem => some (.arr [], rem)
    | _ =>
      match parseVal fuel cs with
      | some (v, rem) => parseArrRest fuel [v] rem
      | none => none

/-- Parse the continuation of an array body (`, v ... ]`). -/
def parseArrRest : Nat → List Js → List Char → Option (Js × List Char)
  | 0, _, _ => none
  | fuel + 1, acc, cs =>
    match skipWs cs with
    | ']' :: rem => some (.arr acc.reverse, rem)
    | ',' :: rest =>
      (match parseVal fuel rest with
       | some (v, rem) => parseArrRest fuel (v :: acc) rem
       | none => none)
    | _ => none

end

/-- The model of `JSON.parse`: `none` is a thrown `SyntaxError`. -/
def jsonParse (s : String) : Option Js :=
  match parseVal (s.toList.length + 1) s.toList with
  | some (v, rest) => if skipWs rest = [] then some v else none
  | none => none

/-- Look a key up in a parsed JSON object (last binding wins, as in
`JSON.parse`). -/
def jsField (j : Js) (key : String) : Option Js :=
  match j with
  | .obj fields => (fields.reverse.find? (fun kv => kv.1 = key)).map (·.2)
  | _ => none

/-- Does a parsed JSON value have the `StructuredSummary` shape of
`src/types.ts` (`title`/`overview` strings and `categories` a list of
categories of points, `isBreaking` an optional boolean)? -/
def isStructuredSummaryJs (j : Js) : Bool :=
  let isStr : Option Js → Bool := fun o => match o with | some (.str _) => true | _ => false
  let isPoint : Js → Bool := fun p =>
    isStr (jsField p "text") &&
    (match jsField p "commits" with
     | some (.arr hs) => hs.all (fun h => match h with | .str _ => true | _ => false)
     | _ => false) &&
    (match jsField p "isBreaking" with
     | none => true
     | some (.bool _) => true
     | _ => false)
  let isCategory : Js → Bool := fun c =>
    isStr (jsField c "title") &&
    (match jsField c "points" with
     | some (.arr ps) => ps.all isPoint
     | _ => false)
  isStr (jsField j "title") &&
  isStr (jsField j "overview") &&
  (match jsField j "categories" with
   | some (.arr cats) => cats.all isCategory
   | _ => false)

/-! ## Core data model (`src/types.ts`, `src/services/llmService.ts`) -/

structure GitilesPerson where
  name : String
  email : String
  time : String
  deriving Repr, DecidableEq

/-- One commit record. `files?` is optional in TypeScript; the empty list
models an absent or empty file list (the code only ever reads
`c.files && c.files.length > 0`, which identifies the two). -/
structure GitilesCommit where
  commit : String
  tree : String
  parents : List String
  author : GitilesPerson
  committer : GitilesPerson
  message : String
  files : List String
  deriving Repr, DecidableEq

/-- A tool invocation, as produced by an adapter (`ToolCall` in
llmService.ts). -/
structure ToolCall where
  id : String
  name : String
  arguments : String
  deriving Repr, DecidableEq

/-- The normalized response of `PlatformAdapter.callAPI`.  The empty list
models an absent/empty `toolCalls` field (the strategy only tests
`response.toolCalls && response.toolCalls.length > 0`). -/
structure APIResponse where
  content : String
  toolCalls : List ToolCall
  deriving Repr, DecidableEq

/-- Options of one `callAPI` invocation. -/
structure CallOptions where
  systemPrompt : String
  enableTools : Bool
  requestJson : Bool
  deriving Repr, DecidableEq

inductive Role where
  | user : Role
  | assistant : Role
  | tool : Role
  deriving Repr, DecidableEq

/-- One conversation turn held by an adapter. -/
structure Message where
  role : Role
  content : String
  toolCalls : List ToolCall
  deriving Repr, DecidableEq

/-- Per-file detail returned by `fetchCommitDetail`
(commitDetailService.ts). -/
structure CommitFileDetail where
  filename : String
  status : String
  additions : Nat
  deletions : Nat
  changes : Nat
  patch : Option String
  deriving Repr, DecidableEq

/-- The detail record returned by `fetchCommitDetail`. -/
structure CommitDetail where
  commit : String
  message : String
  author : String
  date : String
  filesChanged : Nat
  additions : Nat
  deletions : Nat
  files : List CommitFileDetail
  deriving Repr, DecidableEq

/-! ## `fetchMultipleCommitDetails` (commitDetailService.ts lines 119-157)

The source iterates over the identifier list in slices of `BATCH_SIZE = 5`,
runs `Promise.all(batch.map(hash => fetchCommitDetail(hash, token)))` on
each slice, and awaits a 500 ms settle delay between consecutive slices.
`Promise.all` resolves to the results in input order and rejects as soon
as any member rejects; `fetchCommitDetail` rethrows its failure.  We model
the one-commit fetch as a parameter `fetchOne` (the network boundary) and
a rejected batch as the first failing member in list order (which member's
rejection wins when several fail concurrently is timing-dependent; the
fact *that* the batch rejects is not).  The second component counts the
settle delays awaited. -/

def BATCH_SIZE : Nat := 5

/-- `Promise.all(batch.map(hash => fetchCommitDetail(hash, token)))`. -/
def fetchBatch (fetchOne : String → Except String CommitDetail) :
    List String → Except String (List CommitDetail)
  | [] => .ok []
  | h :: hs =>
    match fetchOne h with
    | .error e => .error e
    | .ok d =>
      match fetchBatch fetchOne hs with
      | .error e => .error e
      | .ok ds => .ok (d :: ds)

def fetchMultipleAux (fetchOne : String → Except String CommitDetail) :
    Nat → List String → Except String (List CommitDetail × Nat)
  | _, [] => .ok ([], 0)
  | 0, _ => .ok ([], 0)
  | fuel + 1, hashes =>
    match fetchBatch fetchOne (hashes.take BATCH_SIZE) with
    | .error e => .error e
    | .ok batchResults =>
      if hashes.length ≤ BATCH_SIZE then .ok (batchResults, 0)
      else
        match fetchMultipleAux fetchOne fuel (hashes.drop BATCH_SIZE) with
        | .error e => .error e
        | .ok (rest, delays) => .ok (batchResults ++ rest, delays + 1)

/-- `fetchMultipleCommitDetails(commitHashes, githubToken)`: details in
input order paired with the number of inter-batch settle delays, or the
propagated failure. -/
def fetchMultipleCommitDetails (fetchOne : String → Except String CommitDetail)
    (commitHashes : List String) : Except String (List CommitDetail × Nat) :=
  fetchMultipleAux fetchOne commitHashes.length commitHashes

/-! ## `executeToolCalls` (llmService.ts lines 568-609) -/

/-- `top_files` entry of the formatted tool response (llmService.ts lines
590-596): at most 10 files, with the patch included only when the file's
change count is below 50. -/
structure ToolRespFile where
  filename : String
  status : String
  additions : Nat
  deletions : Nat
  patch : Option String
  deriving Repr, DecidableEq

structure ToolRespCommit where
  commit : String
  message : String
  author : String
  date : String
  files_changed : Nat
  additions : Nat
  deletions : Nat
  top_files : List ToolRespFile
  deriving Repr, DecidableEq

structure ToolResponse where
  commits : List ToolRespCommit
  deriving Repr, DecidableEq

/-- The `toolResponse` object built in llmService.ts lines 581-598. -/
def buildToolResponse (details : List CommitDetail) : ToolResponse :=
  ⟨details.map fun d =>
    ⟨d.commit, d.message, d.author, d.date, d.filesChanged, d.additions, d.deletions,
      (d.files.take 10).map fun f =>
        ⟨f.filename, f.status, f.additions, f.deletions,
          if f.additions + f.deletions < 50 then f.patch else none⟩⟩⟩

/-- External boundaries used by the tool executor:
`decodeArgs` models `JSON.parse(toolCall.arguments)` followed by reading
`args.commit_hashes` (an `.error` is a thrown decode failure), `fetchOne`
models `fetchCommitDetail`, and `stringifyResp` models
`JSON.stringify(toolResponse, null, 2)`. -/
structure ToolEnv where
  decodeArgs : String → Except String (List String)
  fetchOne : String → Except String CommitDetail
  stringifyResp : ToolResponse → String

/-- One iteration of the `for (const toolCall of toolCalls)` loop: the
formatted response pushed for this invocation (`none` when the tool name
is not `get_commit_details`, in which case the source pushes nothing),
together with the identifier lists passed to `fetchMultipleCommitDetails`.
The `try`/`catch` around the body turns any thrown failure into the
`Tool call error` string. -/
def execToolCall (env : ToolEnv) (tc : ToolCall) : Option String × List (List String) :=
  if tc.name = "get_commit_details" then
    match env.decodeArgs tc.arguments with
    | .error e => (some ("Tool call error for " ++ tc.name ++ ": " ++ e), [])
    | .ok commitHashes =>
      match fetchMultipleCommitDetails env.fetchOne commitHashes with
      | .error e => (some ("Tool call error for " ++ tc.name ++ ": " ++ e), [commitHashes])
      | .ok (details, _) =>
        (some ("Tool call result for " ++ tc.name ++ ":\n" ++
                env.stringifyResp (buildToolResponse details)),
         [commitHashes])
  else (none, [])

/-- `executeToolCalls(toolCalls)`: the pushed response strings in order,
together with the identifier lists passed down to the detail fetcher. -/
def executeToolCalls (env : ToolEnv) : List ToolCall → List String × List (List String)
  | [] => ([], [])
  | tc :: rest =>
    let rf := execToolCall env tc
    let rest' := executeToolCalls env rest
    (match rf.1 with | some s => s :: rest'.1 | none => rest'.1, rf.2 ++ rest'.2)

/-! ## The generation strategy (`generateSummaryWithStrategy`,
llmService.ts lines 615-775)

The adapter is modelled by the conversation store it owns (`messages`,
with `addMessage` appending and `resetMessages` clearing, per the
`PlatformAdapter` contract) plus a response script: `callAPI` number `n`
of a run returns `script n opts` (an `.error` models a thrown provider
failure).  The prompt builders are pure template renderings
(`createAgenticPrompt`, `createFinalSummaryFromChunksPrompt`,
`createFinalJsonPrompt`); we keep them opaque, with `config`, `date` and
`branch` absorbed into the environment, and pass them exactly the
chunk-derived arguments the source passes.  The state additionally keeps
observation logs (every `addMessage` ever made, every `callAPI` option
record, every `executeToolCalls` invocation, every identifier list
fetched, and the chunks processed, in order). -/

structure StratState where
  messages : List Message
  addLog : List Message
  callCount : Nat
  callLog : List CallOptions
  toolExecLog : List (List ToolCall)
  fetchLog : List (List String)
  processedChunks : List (List GitilesCommit)
  deriving Repr

def initState : StratState := ⟨[], [], 0, [], [], [], []⟩

structure StrategyEnv where
  toolEnv : ToolEnv
  script : Nat → CallOptions → Except String APIResponse
  agenticPrompt : List GitilesCommit → Nat → Nat →
    Option GitilesCommit → Option GitilesCommit → String
  finalChunksPrompt : List String → Nat → Nat → GitilesCommit → GitilesCommit → String
  finalJsonPrompt : String

def MAX_ITERATIONS : Nat := 10
def CHUNK_THRESHOLD : Nat := 300
def CHUNK_SIZE : Nat := 250
/-- Declared in the source (llmService.ts line 629) but never used by it. -/
def MAX_CHUNK_ITERATIONS : Nat := 5

def chunkSystemPrompt : String :=
  "You are an expert software engineer and technical writer analyzing Chromium commits."
def investSystemPrompt : String :=
  "You are an expert software engineer and technical writer creating daily summaries of Chromium project changes."
def finalJsonSystemPrompt : String :=
  "You are an expert software engineer and technical writer. Generate valid JSON only."
def fallbackPrompt : String :=
  "Please provide a summary of your analysis so far based on the information you gathered."

def chunkCallOptions : CallOptions := ⟨chunkSystemPrompt, true, false⟩
def chunkFallbackOptions : CallOptions := ⟨chunkSystemPrompt, false, false⟩
def investCallOptions : CallOptions := ⟨investSystemPrompt, true, false⟩
def finalJsonOptions : CallOptions := ⟨finalJsonSystemPrompt, false, true⟩

def doAddMessage (st : StratState) (role : Role) (content : String)
    (toolCalls : List ToolCall) : StratState :=
  { st with messages := st.messages ++ [⟨role, content, toolCalls⟩],
            addLog := st.addLog ++ [⟨role, content, toolCalls⟩] }

def doReset (st : StratState) : StratState :=
  { st with messages := [] }

def doCallAPI (env : StrategyEnv) (opts : CallOptions) (st : StratState) :
    Except String APIResponse × StratState :=
  (env.script st.callCount opts,
   { st with callCount := st.callCount + 1, callLog := st.callLog ++ [opts] })

def recordToolExec (st : StratState) (tcs : List ToolCall)
    (fetches : List (List String)) : StratState :=
  { st with toolExecLog := st.toolExecLog ++ [tcs],
            fetchLog := st.fetchLog ++ fetches }

def addToolResponses (st : StratState) (rs : List String) : StratState :=
  rs.foldl (fun s r => doAddMessage s .tool r []) st

/-- The non-chunked agentic investigation loop (llmService.ts lines
738-760), structured on the remaining iteration budget. -/
def investigationLoop (env : StrategyEnv) :
    Nat → StratState → Except String Unit × StratState
  | 0, st => (.ok (), st)
  | fuel + 1, st =>
    match doCallAPI env investCallOptions st with
    | (.error e, st) => (.error e, st)
    | (.ok resp, st) =>
      if resp.toolCalls.isEmpty then (.ok (), st)
      else
        let st := doAddMessage st .assistant resp.content resp.toolCalls
        let tf := executeToolCalls env.toolEnv resp.toolCalls
        let st := recordToolExec st resp.toolCalls tf.2
        let st := addToolResponses st tf.1
        investigationLoop env fuel st

/-- The per-chunk agentic loop (llmService.ts lines 667-692); `some s`
means the chunk's investigation completed naturally with summary `s`,
`none` means the iteration cap was exhausted. -/
def chunkInvestLoop (env : StrategyEnv) :
    Nat → StratState → Except String (Option String) × StratState
  | 0, st => (.ok none, st)
  | fuel + 1, st =>
    match doCallAPI env chunkCallOptions st with
    | (.error e, st) => (.error e, st)
    | (.ok resp, st) =>
      if resp.toolCalls.isEmpty then (.ok (some resp.content), st)
      else
        let st := doAddMessage st .assistant resp.content resp.toolCalls
        let tf := executeToolCalls env.toolEnv resp.toolCalls
        let st := recordToolExec st resp.toolCalls tf.2
        let st := addToolResponses st tf.1
        chunkInvestLoop env fuel st

/-- Processing of one chunk (llmService.ts lines 651-704): reset, append
the chunk's agentic prompt, run the loop, and on cap exhaustion make one
extra tools-disabled fallback call whose text becomes the chunk summary. -/
def processChunk (env : StrategyEnv) (chunk : List GitilesCommit)
    (st : StratState) : Except String String × StratState :=
  let st := doReset st
  let st := doAddMessage st .user
    (env.agenticPrompt chunk chunk.length chunk.length chunk.head? chunk.getLast?) []
  match chunkInvestLoop env MAX_ITERATIONS st with
  | (.error e, st) => (.error e, st)
  | (.ok (some s), st) => (.ok s, st)
  | (.ok none, st) =>
    let st := doAddMessage st .user fallbackPrompt []
    match doCallAPI env chunkFallbackOptions st with
    | (.error e, st) => (.error e, st)
    | (.ok resp, st) => (.ok resp.content, st)

/-- The `for (let idx = 0; ...)` loop over chunks (llmService.ts lines
650-705), collecting the chunk summaries in order. -/
def processChunks (env : StrategyEnv) :
    List (List GitilesCommit) → StratState → Except String (List String) × StratState
  | [], st => (.ok [], st)
  | c :: rest, st =>
    let st := { st with processedChunks := st.processedChunks ++ [c] }
    match processChunk env c st with
    | (.error e, st) => (.error e, st)
    | (.ok s, st) =>
      match processChunks env rest st with
      | (.error e, st) => (.error e, st)
      | (.ok ss, st) => (.ok (s :: ss), st)

/-- Failures of one generation call: a propagated adapter/provider
exception, or the `SyntaxError` thrown by `JSON.parse` on the final
JSON-mode response. -/
inductive GenError where
  | provider (msg : String) : GenError
  | malformedResponse (content : String) : GenError
  deriving Repr, DecidableEq

/-- Phase 2 of the strategy (llmService.ts lines 763-775): append the
final-JSON prompt, make the one JSON-mode call, and `JSON.parse` its
text. -/
def finalJsonStep (env : StrategyEnv) (st : StratState) :
    Except GenError Js × StratState :=
  let st := doAddMessage st .user env.finalJsonPrompt []
  match doCallAPI env finalJsonOptions st with
  | (.error e, st) => (.error (.provider e), st)
  | (.ok resp, st) =>
    match jsonParse resp.content with
    | none => (.error (.malformedResponse resp.content), st)
    | some j => (.ok j, st)

/-- `generateSummaryWithStrategy(adapter, commits, config, date, branch,
totalCommitsCount, relevantCommitsCount, firstCommit, lastCommit)`
(llmService.ts lines 615-775).  The returned value is the runtime result
of `JSON.parse(finalResponse.content) as StructuredSummary` — the `as`
cast validates nothing, so the result is the raw parsed JSON value. -/
def generateSummaryWithStrategy (env : StrategyEnv) (commits : List GitilesCommit)
    (totalCommitsCount relevantCommitsCount : Nat)
    (firstCommit lastCommit : GitilesCommit) : Except GenError Js × StratState :=
  let st := doReset initState
  if commits.length > CHUNK_THRESHOLD then
    let chunks := chunksOf CHUNK_SIZE commits
    match processChunks env chunks st with
    | (.error e, st) => (.error (.provider e), st)
    | (.ok chunkSummaries, st) =>
      let st := doReset st
      let st := doAddMessage st .user
        (env.finalChunksPrompt chunkSummaries totalCommitsCount relevantCommitsCount
          firstCommit lastCommit) []
      finalJsonStep env st
  else
    let st := doAddMessage st .user
      (env.agenticPrompt commits totalCommitsCount relevantCommitsCount
        (some firstCommit) (some lastCommit)) []
    match investigationLoop env MAX_ITERATIONS st with
    | (.error e, st) => (.error (.provider e), st)
    | (.ok _, st) => finalJsonStep env st

/-! ## The retry wrapper (`generateContentWithRetry`, identical in
`src/unnamed/part_001` lines 22-70 and `src/unnamed/part_002` lines
27-75)

The underlying remote call `ai.models.generateContent({model, contents,
config})` is modelled by `callModel contents attempt` — note that every
attempt of one wrapper invocation receives the *same* `contents` value:
the wrapper never touches the conversation it was handed (the source
only reads `contents`; the countdown interval and `setTimeout` delay are
pure waiting and are not modelled).  The second component of the result
counts the attempts made. -/

/-- A thrown JS error as seen by the retry wrapper (`error?.message`,
`error?.status`). -/
structure ApiError where
  message : String
  status : Option Nat
  deriving Repr, DecidableEq

def MAX_API_RETRIES : Nat := 10

/-- The `isRateLimitError` classification (part_001 lines 35-39). -/
def isRateLimitError (e : ApiError) : Bool :=
  containsSeq "rate limit".toList (lowerStr e.message).toList ||
  containsSeq "quota".toList (lowerStr e.message).toList ||
  containsSeq "429".toList (lowerStr e.message).toList ||
  containsSeq "overloaded".toList (lowerStr e.message).toList ||
  e.status = some 429

/-- What the retry wrapper can throw: the original error re-raised, or
the wrapping `new Error(...)` built after the final attempt. -/
inductive RetryFailure where
  | raised (e : ApiError) : RetryFailure
  | exhausted (msg : String) : RetryFailure
  deriving Repr, DecidableEq

/-- `top_files` entry of part_001's chunk tool response (lines 266-271):
filename, status, additions and deletions only. -/
structure ChunkRespFile where
  filename : String
  status : String
  additions : Nat
  deletions : Nat
  deriving Repr, DecidableEq

/-- One commit of part_001's chunk tool response (lines 260-272). -/
structure ChunkRespCommit where
  commit : String
  message : String
  files_changed : Nat
  additions : Nat
  deletions : Nat
  top_files : List ChunkRespFile
  deriving Repr, DecidableEq

/-- Parts of a Gemini history entry. -/
inductive GeminiFnPayload where
  | commitsPayload (commits : List ChunkRespCommit) : GeminiFnPayload
  | errorPayload (msg : String) : GeminiFnPayload
  | jsPayload (j : Js) : GeminiFnPayload

inductive GeminiPart where
  | text (s : String) : GeminiPart
  | functionResponse (name : String) (payload : GeminiFnPayload) : GeminiPart
  | raw (tag : String) : GeminiPart

/-- One entry of a Gemini `contents` history (`{role, parts}`). -/
structure GeminiContent where
  role : String
  parts : List GeminiPart

/-- `call.args.commit_hashes as string[]` of a Gemini function call. -/
structure GeminiFunctionCall where
  name : String
  commit_hashes : List String
  deriving Repr, DecidableEq

/-- The response object of one successful Gemini call: `candidates[0].
content.parts` (or `[]` when absent), `response.functionCalls` (`[]`
models absent) and `response.text`. -/
structure GeminiResponse where
  parts : List GeminiPart
  functionCalls : List GeminiFunctionCall
  text : String

/-- The `for (attempt = 1; attempt <= MAX_API_RETRIES; attempt++)` loop.
`fuel` is the number of loop iterations still permitted; the fallthrough
after the loop (part_001 line 69, unreachable in practice) is the
`fuel = 0` case. -/
def retryAux (callModel : Nat → Except ApiError GeminiResponse) (operationName : String) :
    Nat → Nat → Except RetryFailure GeminiResponse × Nat
  | 0, _ =>
    (.error (.exhausted ("Failed " ++ operationName ++ " after all retry attempts")), 0)
  | fuel + 1, attempt =>
    match callModel attempt with
    | .ok r => (.ok r, 1)
    | .error e =>
      if isRateLimitError e && attempt < MAX_API_RETRIES then
        let (res, n) := retryAux callModel operationName fuel (attempt + 1)
        (res, n + 1)
      else if attempt = MAX_API_RETRIES then
        (.error (.exhausted ("Failed " ++ operationName ++ " after " ++
          toString MAX_API_RETRIES ++ " attempts. Last error: " ++ e.message)), 1)
      else
        (.error (.raised e), 1)

/-- `generateContentWithRetry(contents, config, operationName)`. -/
def generateContentWithRetry
    (callModel : List GeminiContent → Nat → Except ApiError GeminiResponse)
    (contents : List GeminiContent) (operationName : String) :
    Except RetryFailure GeminiResponse × Nat :=
  retryAux (callModel contents) operationName MAX_API_RETRIES 1

/-! ## `generateChunkSummary` (`src/unnamed/part_001` lines 192-296)

The older Gemini-specific engine's per-chunk loop: local iteration cap
`MAX_ITERATIONS = 5`; on a response without function calls it returns
`response.text.trim()`; after the loop it **throws**
`new Error('Max iterations reached in chunk summary')`.  `callModel` is
indexed first by the loop's call number (each loop iteration makes one
`generateContentWithRetry` invocation, whose attempts are numbered
afresh). -/

inductive GChunkError where
  | apiFailure (f : RetryFailure) : GChunkError
  | thrown (msg : String) : GChunkError

/-- The success payload built for `get_commit_details` in part_001 lines
257-274 (top 8 files, no patch). -/
def buildChunkPayload (details : List CommitDetail) : GeminiFnPayload :=
  .commitsPayload (details.map fun d =>
    ⟨d.commit, d.message, d.filesChanged, d.additions, d.deletions,
      (d.files.take 8).map fun f => ⟨f.filename, f.status, f.additions, f.deletions⟩⟩)

/-- One loop pass of `generateChunkSummary` with `fuel` iterations left;
`iteration` is the 1-based iteration number and `callIdx` the number of
prior `generateContentWithRetry` invocations. -/
def generateChunkSummaryLoop
    (callModel : Nat → List GeminiContent → Nat → Except ApiError GeminiResponse)
    (fetchOne : String → Except String CommitDetail) (chunkIndex : Nat) :
    Nat → Nat → Nat → List GeminiContent → Except GChunkError String
  | 0, _, _, _ => .error (.thrown "Max iterations reached in chunk summary")
  | fuel + 1, iteration, callIdx, chatHistory =>
    match generateContentWithRetry (callModel callIdx) chatHistory
        ("chunk " ++ toString (chunkIndex + 1) ++ " iteration " ++ toString iteration) with
    | (.error f, _) => .error (.apiFailure f)
    | (.ok resp, _) =>
      let chatHistory := chatHistory ++ [⟨"model", resp.parts⟩]
      if resp.functionCalls.isEmpty then
        .ok (jsTrim resp.text)
      else
        let functionResponses := resp.functionCalls.map fun call =>
          if call.name = "get_commit_details" then
            match fetchMultipleCommitDetails fetchOne call.commit_hashes with
            | .ok (details, _) =>
              GeminiPart.functionResponse call.name (buildChunkPayload details)
            | .error e =>
              GeminiPart.functionResponse call.name (.errorPayload ("Failed to fetch: " ++ e))
          else
            GeminiPart.functionResponse call.name (.errorPayload "Unknown function")
        let chatHistory := chatHistory ++ [⟨"user", functionResponses⟩]
        generateChunkSummaryLoop callModel fetchOne chunkIndex fuel (iteration + 1)
          (callIdx + 1) chatHistory

/-- `generateChunkSummary(commits, chunkIndex, totalChunks)`; the rendered
chunk prompt is `prompt` (a pure template of the commits). -/
def generateChunkSummary
    (callModel : Nat → List GeminiContent → Nat → Except ApiError GeminiResponse)
    (fetchOne : String → Except String CommitDetail)
    (prompt : String) (chunkIndex : Nat) : Except GChunkError String :=
  generateChunkSummaryLoop callModel fetchOne chunkIndex 5 1 0
    [⟨"user", [.text prompt]⟩]

/-! ## The Nexos streaming tool-call accumulator
(`NexosAdapter.callAPI`, `src/unnamed/part_002` lines 437-511)

After the whole stream body is consumed, the parsed `delta.tool_calls`
fragments are folded into `toolCallsMap: Map<number, {id?, name?,
arguments?}>` keyed by `toolCall.index ?? 0` (a JS `Map` iterates in key
insertion order), and only entries whose `id`, `name` and `arguments`
are all truthy are emitted. -/

/-- One streamed tool-call fragment (`delta.tool_calls[i]`). -/
structure NexosDeltaToolCall where
  index : Option Nat
  id : Option String
  name : Option String
  fnArgs : Option String
  deriving Repr, DecidableEq

/-- A partially accumulated tool call (the map's value type). -/
structure PartialToolCall where
  id : Option String
  name : Option String
  fnArgs : Option String
  deriving Repr, DecidableEq

/-- Merge one fragment's fields into one accumulated entry (part_002
lines 474-479).  The `if (toolCall.id)` / `if (toolCall.function?.name)`
/ `if (toolCall.function?.arguments)` guards are JS truthiness tests, so
an absent *or empty* fragment field is ignored; argument fragments are
concatenated onto the existing text. -/
def applyFrag (tc : PartialToolCall) (d : NexosDeltaToolCall) : PartialToolCall :=
  let tc := match d.id with
    | some s => if s ≠ "" then { tc with id := some s } else tc
    | none => tc
  let tc := match d.name with
    | some s => if s ≠ "" then { tc with name := some s } else tc
    | none => tc
  let tc := match d.fnArgs with
    | some s => if s ≠ "" then { tc with fnArgs := some (tc.fnArgs.getD "" ++ s) } else tc
    | none => tc
  tc

/-- Apply one fragment to the accumulator map (part_002 lines 466-480):
key on `toolCall.index ?? 0`, create the entry on first sight (a JS `Map`
appends new keys in insertion order), and merge the fragment into the
keyed entry. -/
def applyDelta (m : List (Nat × PartialToolCall)) (d : NexosDeltaToolCall) :
    List (Nat × PartialToolCall) :=
  let index := d.index.getD 0
  let m := if m.any (fun e => e.1 = index) then m else m ++ [(index, ⟨none, none, none⟩)]
  m.map fun e => if e.1 = index then (e.1, applyFrag e.2 d) else e

def accumulateToolCalls (deltas : List NexosDeltaToolCall) : List (Nat × PartialToolCall) :=
  deltas.foldl applyDelta []

/-- The final conversion (part_002 lines 497-506): emit only entries with
truthy `id`, `name` and `arguments`. -/
def finalizeToolCalls (m : List (Nat × PartialToolCall)) : List ToolCall :=
  m.filterMap fun e =>
    match e.2.id, e.2.name, e.2.fnArgs with
    | some i, some n, some a =>
      if i ≠ "" && n ≠ "" && a ≠ "" then some ⟨i, n, a⟩ else none
    | _, _, _ => none

/-- The tool calls returned to the strategy for one fully consumed
stream. -/
def nexosStreamToolCalls (deltas : List NexosDeltaToolCall) : List ToolCall :=
  finalizeToolCalls (accumulateToolCalls deltas)

/-- Look up the accumulated entry for index `k` (`toolCallsMap.get(index)`;
the accumulator keeps at most one entry per key, mirroring the JS `Map`). -/
def keyEntry (m : List (Nat × PartialToolCall)) (k : Nat) : Option PartialToolCall :=
  (m.find? fun e => e.1 = k).map fun e => e.2

/-- The argument text one fragment contributes under the JS truthiness
guard: `none` when `function?.arguments` is absent or empty. -/
def argPart (d : NexosDeltaToolCall) : Option String :=
  match d.fnArgs with
  | some s => if s ≠ "" then some s else none
  | none => none

/-- In-order concatenation of a list of strings. -/
def concatStrs : List String → String
  | [] => ""
  | s :: rest => s ++ concatStrs rest

/-- The fragments of the stream addressed to index `k`, in arrival order. -/
def deltasFor (k : Nat) (ds : List NexosDeltaToolCall) : List NexosDeltaToolCall :=
  ds.filter fun d => d.index.getD 0 = k

/-- The nonempty argument fragments delivered for index `k`, in arrival
order. -/
def argFragsFor (k : Nat) (ds : List NexosDeltaToolCall) : List String :=
  ds.filterMap fun d => if d.index.getD 0 = k then argPart d else none

/-- Reference description of one accumulated entry: the starting entry
`e0` (if any) updated in order by the fragments `fs` addressed to its
key; `none` exactly when the key was never seen. -/
def entrySpec (e0 : Option PartialToolCall) (fs : List NexosDeltaToolCall) :
    Option PartialToolCall :=
  match e0, fs with
  | none, [] => none
  | _, _ => some (fs.foldl applyFrag (e0.getD ⟨none, none, none⟩))

/-! ## Adapter conversation stores (`src/unnamed/part_002`)

`GeminiAdapter` keeps `chatHistory` in Gemini wire format and appends the
model turn *inside* `callAPI` (lines 162-166); its
`addMessage('assistant', ...)` is deliberately a no-op (lines 206-209).
`NexosAdapter` keeps OpenAI-style messages and appends the assistant turn
in `addMessage` (lines 521-544). -/

def joinLines : List String → String
  | [] => ""
  | [x] => x
  | x :: xs => x ++ "\n" ++ joinLines xs

/-- `GeminiAdapter.addMessage` (part_002 lines 189-210).  The `tool` case
re-parses the formatted tool response (everything after the first line)
with `JSON.parse`, which can throw (`.error`). -/
def geminiAddMessage (chatHistory : List GeminiContent) (role : Role)
    (content : String) (_toolCalls : List ToolCall) :
    Except String (List GeminiContent) :=
  match role with
  | .tool =>
    match jsonParse (joinLines ((splitLines content).drop 1)) with
    | none => .error "SyntaxError"
    | some j =>
      .ok (chatHistory ++ [⟨"user", [.functionResponse "get_commit_details" (.jsPayload j)]⟩])
  | .user => .ok (chatHistory ++ [⟨"user", [.text content]⟩])
  | .assistant => .ok chatHistory

/-- The history update performed inside `GeminiAdapter.callAPI` (part_002
lines 162-166): the model's turn is pushed onto `chatHistory`. -/
def geminiCallAPIHistory (chatHistory : List GeminiContent)
    (resp : GeminiResponse) : List GeminiContent :=
  chatHistory ++ [⟨"model", resp.parts⟩]

/-- An OpenAI-style Nexos message; `tool_calls = []` models an absent
`tool_calls` field, and the constant `type: "function"` wrapper of each
entry carries no information. -/
structure NexosMessage where
  role : String
  content : String
  tool_calls : List ToolCall
  deriving Repr, DecidableEq

/-- `NexosAdapter.addMessage` (part_002 lines 521-544). -/
def nexosAddMessage (messages : List NexosMessage) (role : Role)
    (content : String) (toolCalls : List ToolCall) : List NexosMessage :=
  match role with
  | .tool => messages ++ [⟨"user", content, []⟩]
  | .assistant => messages ++ [⟨"assistant", content, toolCalls⟩]
  | .user => messages ++ [⟨"user", content, toolCalls⟩]

/-! ## Theorems

### C8 — the phased candidate filter -/

theorem toNat_ofNat_of_valid (n : Nat) (h : n < 55296) : (Char.ofNat n).toNat = n := by
  have hv : n.isValidChar := Or.inl h
  simp [Char.ofNat, hv, Char.ofNatAux, Char.toNat, UInt32.toNat, BitVec.toNat_ofNatLt]

theorem lowerChar_hex_ne (c : Char) (h : isHexDigitChar c = true) : lowerChar c ≠ 'n' := by
  intro hEq
  have h110 : (lowerChar c).toNat = 110 := by rw [hEq]; rfl
  simp [isHexDigitChar] at h
  unfold lowerChar at h110
  cases hB : (65 ≤ c.toNat && c.toNat ≤ 90) with
  | true =>
    rw [hB, if_pos rfl] at h110
    simp at hB
    rw [toNat_ofNat_of_valid (c.toNat + 32) (by omega)] at h110
    omega
  | false =>
    rw [hB] at h110
    simp at h110 hB
    omega

theorem lowerChar_marker_ne (c : Char) (h : isMarkerChar c = true) : lowerChar c ≠ 'n' := by
  simp [isMarkerChar, isJsSpace] at h
  rcases h with ((((((h|h)|h)|h)|h)|h)|h)|h <;> subst h <;> decide

theorem beginsWith_mem {n h : List Char} (hb : beginsWith n h = true) :
    ∀ c ∈ n, c ∈ h := by
  induction n generalizing h with
  | nil => simp
  | cons x xs ih =>
    cases h with
    | nil => simp [beginsWith] at hb
    | cons y ys =>
      simp only [beginsWith, Bool.and_eq_true, decide_eq_true_eq] at hb
      intro c hc
      rcases List.mem_cons.mp hc with h1 | h1
      · subst h1; rw [hb.1]; exact List.mem_cons_self _ _
      · exact List.mem_cons_of_mem _ (ih hb.2 c h1)

theorem containsSeq_mem {n h : List Char} (hc : containsSeq n h = true) :
    ∀ c ∈ n, c ∈ h := by
  induction h with
  | nil => exact beginsWith_mem hc
  | cons y ys ih =>
    simp only [containsSeq, Bool.or_eq_true] at hc
    rcases hc with hc | hc
    · exact beginsWith_mem hc
    · exact fun c hcn => List.mem_cons_of_mem _ (ih hc c hcn)

theorem dropTrailingSpace_append (d : List Char) :
    dropTrailingSpace d ++ (d.reverse.takeWhile isJsSpace).reverse = d := by
  have h := List.takeWhile_append_dropWhile (p := isJsSpace) (l := d.reverse)
  unfold dropTrailingSpace
  calc (d.reverse.dropWhile isJsSpace).reverse ++ (d.reverse.takeWhile isJsSpace).reverse
      = (d.reverse.takeWhile isJsSpace ++ d.reverse.dropWhile isJsSpace).reverse := by
        rw [List.reverse_append]
    _ = d := by rw [h, List.reverse_reverse]

theorem jsSpace_marker {c : Char} (h : isJsSpace c = true) : isMarkerChar c = true := by
  simp [isMarkerChar, h]

/-- Every character of a line whose stripped form is pure hex is a list
marker, a hex digit, or trailing whitespace. -/
theorem stripLine_classes (s : String) (hhex : isHex40 (stripLine s) = true) :
    ∀ c ∈ s.toList, isMarkerChar c = true ∨ isHexDigitChar c = true := by
  intro c hc
  set cs := s.toList with hcs
  set M := cs.takeWhile isMarkerChar with hM
  set D := cs.dropWhile isMarkerChar with hD
  have hsplit : M ++ D = cs :=
    List.takeWhile_append_dropWhile (p := isMarkerChar) (l := cs)
  have hDhead : D.dropWhile isJsSpace = D := by
    cases hDD : D with
    | nil => simp
    | cons d ds =>
      have hd : isMarkerChar d = false := by
        have := List.head?_dropWhile_not (p := isMarkerChar) (l := cs)
        rw [← hD] at this
        rw [hDD] at this
        simpa using this
      have : isJsSpace d = false := by
        cases hj : isJsSpace d
        · rfl
        · rw [jsSpace_marker hj] at hd; cases hd
      simp [List.dropWhile_cons, this]
  have hH : stripLine s = String.mk (dropTrailingSpace D) := by
    unfold stripLine jsTrimL
    rw [← hcs, ← hD, hDhead]
  have hDdecomp : dropTrailingSpace D ++ (D.reverse.takeWhile isJsSpace).reverse = D :=
    dropTrailingSpace_append D
  rw [← hsplit] at hc
  rcases List.mem_append.mp hc with hc | hc
  · exact Or.inl (List.mem_takeWhile_imp hc)
  · rw [← hDdecomp] at hc
    rcases List.mem_append.mp hc with hc | hc
    · right
      have hall : (stripLine s).toList.all isHexDigitChar = true := by
        simp only [isHex40, Bool.and_eq_true] at hhex
        exact hhex.2
      rw [hH] at hall
      exact List.all_eq_true.mp hall c hc
    · left
      exact jsSpace_marker (List.mem_takeWhile_imp (List.mem_reverse.mp hc))

/-- A line whose stripped form is a 40-hex string survives the source's
blank-line filter. -/
theorem hex_line_trim_ne (s : String) (hhex : isHex40 (stripLine s) = true) :
    jsTrim s ≠ "" := by
  intro hEmpty
  have hall : ∀ c ∈ s.toList, isJsSpace c = true := by
    intro c hc
    have h1 : jsTrimL s.toList = [] := by
      have : (jsTrim s).toList = [] := by rw [hEmpty]; rfl
      simpa [jsTrim] using this
    unfold jsTrimL dropTrailingSpace at h1
    have h2 : s.toList.dropWhile isJsSpace = [] := by
      have h4 := congrArg List.reverse h1
      rw [List.reverse_reverse, List.reverse_nil] at h4
      have h3 : ∀ a ∈ (s.toList.dropWhile isJsSpace).reverse, isJsSpace a = true :=
        List.dropWhile_eq_nil_iff.mp h4
      rcases hdd : s.toList.dropWhile isJsSpace with _ | ⟨d, ds⟩
      · rfl
      · have hd : isJsSpace d = false := by
          have hh := List.head?_dropWhile_not (p := isJsSpace) (l := s.toList)
          rw [hdd] at hh
          simpa using hh
        have hmem : d ∈ (s.toList.dropWhile isJsSpace).reverse := by
          rw [hdd]; simp
        exact absurd (h3 d hmem) (by simp [hd])
    have := List.takeWhile_append_dropWhile (p := isJsSpace) (l := s.toList)
    rw [h2, List.append_nil] at this
    rw [← this] at hc
    exact List.mem_takeWhile_imp hc
  have hmark : s.toList.dropWhile isMarkerChar = [] :=
    List.dropWhile_eq_nil_iff.mpr (fun a ha => jsSpace_marker (hall a ha))
  have : stripLine s = "" := by
    unfold stripLine
    rw [hmark]
    rfl
  rw [this] at hhex
  simp [isHex40] at hhex

/-- A line whose stripped form is a 40-hex string cannot contain
`no potential` (case-insensitively): its alphabet is markers, hex digits
and whitespace, none of which lower-cases to `'n'`. -/
theorem hex_line_no_potential (s : String)
    (hhex : isHex40 (stripLine s) = true) :
    containsSeq "no potential".toList (lowerStr s).toList = false := by
  cases hc : containsSeq "no potential".toList (lowerStr s).toList
  · rfl
  · exfalso
    have hn : ('n' : Char) ∈ (lowerStr s).toList :=
      containsSeq_mem hc 'n' (by decide)
    have : ∃ c ∈ s.toList, lowerChar c = 'n' := by
      simpa [lowerStr] using hn
    obtain ⟨c, hmem, hlc⟩ := this
    rcases stripLine_classes s hhex c hmem with h | h
    · exact lowerChar_marker_ne c h hlc
    · exact lowerChar_hex_ne c h hlc

/-- **C8.** In the phased breaking-change variant
(`executePhasedAnalysis`), the candidate set extracted from the phase-1
response is exactly the list of response lines that, after stripping
leading whitespace / list markers and trimming, are 40-character
hexadecimal strings (the blank-line and `no potential` pre-filters remove
nothing further), and every member matches the fixed-length hex
pattern. -/
theorem candidate_extraction_exact (content : String) :
    extractCandidates content =
      ((splitLines content).map stripLine).filter isHex40 ∧
    ∀ x ∈ extractCandidates content, isHex40 x = true := by
  have hmain : extractCandidates content =
      ((splitLines content).map stripLine).filter isHex40 := by
    unfold extractCandidates
    rw [List.filter_map, List.filter_map, List.filter_filter]
    congr 1
    apply List.filter_congr
    intro a _
    simp only [Function.comp_apply]
    cases hx : isHex40 (stripLine a)
    · simp
    · have h1 := hex_line_trim_ne a hx
      have h2 := hex_line_no_potential a hx
      rw [h2]
      simp [h1]
  refine ⟨hmain, ?_⟩
  intro x hx
  rw [hmain] at hx
  exact List.of_mem_filter hx

/-- Witness for C8 at a concrete phase-1 response. -/
theorem candidate_extraction_exact_witness :
    extractCandidates "Candidates:\n- 0123456789abcdef0123456789abcdef01234567\nnone else" =
      ["0123456789abcdef0123456789abcdef01234567"] ∧
    isHex40 "0123456789abcdef0123456789abcdef01234567" = true := by
  have h := candidate_extraction_exact
    "Candidates:\n- 0123456789abcdef0123456789abcdef01234567\nnone else"
  refine ⟨?_, h.2 "0123456789abcdef0123456789abcdef01234567" ?_⟩ <;>
    rw [h.1] <;> decide

/-! ### C10 — adapter conversation frame effects -/

/-- **C10.** For the Gemini adapter, `addMessage('assistant', ...)` leaves
the conversation history unchanged (the model turn is appended inside
`callAPI` itself), so `callAPI` followed by `addMessage('assistant', ...)`
grows the Gemini history by exactly the one model turn; the Nexos adapter
instead appends the assistant turn in `addMessage`. -/
theorem gemini_assistant_noop_nexos_appends
    (chatHistory : List GeminiContent) (resp : GeminiResponse)
    (content : String) (toolCalls : List ToolCall) (messages : List NexosMessage) :
    geminiAddMessage chatHistory .assistant content toolCalls = .ok chatHistory ∧
    geminiAddMessage (geminiCallAPIHistory chatHistory resp) .assistant content toolCalls =
      .ok (chatHistory ++ [⟨"model", resp.parts⟩]) ∧
    (geminiCallAPIHistory chatHistory resp).length = chatHistory.length + 1 ∧
    nexosAddMessage messages .assistant content toolCalls =
      messages ++ [⟨"assistant", content, toolCalls⟩] ∧
    (nexosAddMessage messages .assistant content toolCalls).length = messages.length + 1 := by
  refine ⟨rfl, rfl, ?_, rfl, ?_⟩ <;> simp [geminiCallAPIHistory, nexosAddMessage]

/-! ### C6 — the retry wrapper -/

/-- **C6.** The retry wrapper retries only errors classified retryable by
`isRateLimitError` (rate limit / quota / 429 / overloaded), re-raises a
non-retryable first-attempt error immediately, and after exhausting
`MAX_API_RETRIES` attempts fails with an error wrapping the last
underlying error's message.  Every attempt applies the remote call to the
same unmodified `contents` (the wrapper never touches the adapter's
conversation), which is visible in each hypothesis below. -/
theorem retry_wrapper_contract
    (callModel : List GeminiContent → Nat → Except ApiError GeminiResponse)
    (contents : List GeminiContent) (operationName : String) :
    (∀ r, callModel contents 1 = .ok r →
      generateContentWithRetry callModel contents operationName = (.ok r, 1)) ∧
    (∀ e, callModel contents 1 = .error e → isRateLimitError e = false →
      generateContentWithRetry callModel contents operationName = (.error (.raised e), 1)) ∧
    (∀ e : Nat → ApiError,
      (∀ j, 1 ≤ j → j ≤ MAX_API_RETRIES → callModel contents j = .error (e j)) →
      (∀ j, 1 ≤ j → j ≤ MAX_API_RETRIES → isRateLimitError (e j) = true) →
      generateContentWithRetry callModel contents operationName =
        (.error (.exhausted ("Failed " ++ operationName ++ " after " ++
            toString MAX_API_RETRIES ++ " attempts. Last error: " ++
            (e MAX_API_RETRIES).message)),
         MAX_API_RETRIES)) ∧
    (∀ res n, generateContentWithRetry callModel contents operationName = (res, n) →
      2 ≤ n → ∃ e1, callModel contents 1 = .error e1 ∧ isRateLimitError e1 = true) := by
  refine ⟨?_, ?_, ?_, ?_⟩
  · intro r h
    simp [generateContentWithRetry, retryAux, MAX_API_RETRIES, h]
  · intro e h hr
    simp [generateContentWithRetry, retryAux, MAX_API_RETRIES, h, hr]
  · intro e he hr
    have h1 := he 1 (by norm_num) (by simp [MAX_API_RETRIES])
    have h2 := he 2 (by norm_num) (by simp [MAX_API_RETRIES])
    have h3 := he 3 (by norm_num) (by simp [MAX_API_RETRIES])
    have h4 := he 4 (by norm_num) (by simp [MAX_API_RETRIES])
    have h5 := he 5 (by norm_num) (by simp [MAX_API_RETRIES])
    have h6 := he 6 (by norm_num) (by simp [MAX_API_RETRIES])
    have h7 := he 7 (by norm_num) (by simp [MAX_API_RETRIES])
    have h8 := he 8 (by norm_num) (by simp [MAX_API_RETRIES])
    have h9 := he 9 (by norm_num) (by simp [MAX_API_RETRIES])
    have h10 := he 10 (by norm_num) (by simp [MAX_API_RETRIES])
    have r1 := hr 1 (by norm_num) (by simp [MAX_API_RETRIES])
    have r2 := hr 2 (by norm_num) (by simp [MAX_API_RETRIES])
    have r3 := hr 3 (by norm_num) (by simp [MAX_API_RETRIES])
    have r4 := hr 4 (by norm_num) (by simp [MAX_API_RETRIES])
    have r5 := hr 5 (by norm_num) (by simp [MAX_API_RETRIES])
    have r6 := hr 6 (by norm_num) (by simp [MAX_API_RETRIES])
    have r7 := hr 7 (by norm_num) (by simp [MAX_API_RETRIES])
    have r8 := hr 8 (by norm_num) (by simp [MAX_API_RETRIES])
    have r9 := hr 9 (by norm_num) (by simp [MAX_API_RETRIES])
    have r10 := hr 10 (by norm_num) (by simp [MAX_API_RETRIES])
    simp [generateContentWithRetry, retryAux, MAX_API_RETRIES,
      h1, h2, h3, h4, h5, h6, h7, h8, h9, h10,
      r1, r2, r3, r4, r5, r6, r7, r8, r9, r10]
  · intro res n hres hn
    cases hcall : callModel contents 1 with
    | ok r =>
      rw [generateContentWithRetry] at hres
      simp [MAX_API_RETRIES, retryAux, hcall] at hres
      omega
    | error e =>
      cases hrl : isRateLimitError e
      · rw [generateContentWithRetry] at hres
        simp [MAX_API_RETRIES, retryAux, hcall, hrl] at hres
        omega
      · exact ⟨e, rfl, hrl⟩

/-- Witness for C6: a first-attempt success, an immediately re-raised
non-retryable error, and ten retryable quota errors ending in the
wrapping failure. -/
theorem retry_wrapper_contract_witness :
    generateContentWithRetry (fun _ _ => .ok ⟨[], [], "done"⟩) [] "op" =
      (.ok ⟨[], [], "done"⟩, 1) ∧
    generateContentWithRetry (fun _ _ => .error ⟨"boom", none⟩) [] "op" =
      (.error (.raised ⟨"boom", none⟩), 1) ∧
    generateContentWithRetry (fun _ _ => .error ⟨"quota exceeded", none⟩) [] "op" =
      (.error (.exhausted ("Failed op after " ++ toString MAX_API_RETRIES ++
        " attempts. Last error: quota exceeded")), MAX_API_RETRIES) := by
  have hq : isRateLimitError ⟨"quota exceeded", none⟩ = true := by decide
  refine ⟨(retry_wrapper_contract _ [] "op").1 _ rfl,
          (retry_wrapper_contract _ [] "op").2.1 _ rfl (by decide),
          (retry_wrapper_contract (fun _ _ => .error ⟨"quota exceeded", none⟩) [] "op").2.2.1
            (fun _ => ⟨"quota exceeded", none⟩) (fun _ _ _ => rfl) (fun _ _ _ => hq)⟩

/-! ### C5 — `fetchMultipleCommitDetails` batching and failure behaviour -/

theorem fetchBatch_ok (f : String → CommitDetail) (l : List String) :
    fetchBatch (fun h => .ok (f h)) l = .ok (l.map f) := by
  induction l with
  | nil => rfl
  | cons h t ih => simp [fetchBatch, ih]

theorem fetchBatch_error (fetchOne : String → Except String CommitDetail)
    (l : List String) (h : String) (hmem : h ∈ l) (e : String)
    (herr : fetchOne h = .error e) :
    ∃ e', fetchBatch fetchOne l = .error e' := by
  induction l with
  | nil => cases hmem
  | cons x t ih =>
    rcases List.mem_cons.mp hmem with hx | hx
    · subst hx
      cases hf : fetchOne h with
      | error e' => exact ⟨e', by simp [fetchBatch, hf]⟩
      | ok d => rw [hf] at herr; cases herr
    · cases hf : fetchOne x with
      | error e' => exact ⟨e', by simp [fetchBatch, hf]⟩
      | ok d =>
        obtain ⟨e', he'⟩ := ih hx
        exact ⟨e', by simp [fetchBatch, hf, he']⟩

theorem fetchMultipleAux_ok (f : String → CommitDetail) :
    ∀ (fuel : Nat) (hashes : List String), hashes.length ≤ fuel →
      fetchMultipleAux (fun h => .ok (f h)) fuel hashes =
        .ok (hashes.map f, if hashes = [] then 0 else (hashes.length + 4) / 5 - 1) := by
  intro fuel
  induction fuel with
  | zero =>
    intro hashes hlen
    have : hashes = [] := List.length_eq_zero.mp (Nat.le_zero.mp hlen)
    subst this
    rfl
  | succ n ih =>
    intro hashes hlen
    cases hashes with
    | nil => rfl
    | cons x t =>
      by_cases hle : (x :: t).length ≤ BATCH_SIZE
      · have htake : (x :: t).take BATCH_SIZE = x :: t :=
          List.take_of_length_le hle
        have hform : ((x :: t).length + 4) / 5 - 1 = 0 := by
          have h1 : 1 ≤ (x :: t).length := by simp
          simp only [BATCH_SIZE] at hle
          omega
        simp only [fetchMultipleAux, fetchBatch_ok, htake, if_pos hle]
        simp only [List.length_cons, BATCH_SIZE] at hle
        simp
        omega
      · have hdroplen : ((x :: t).drop BATCH_SIZE).length ≤ n := by
          simp only [List.length_drop]
          simp only [List.length_cons, BATCH_SIZE] at hle hlen ⊢
          omega
        have hdropne : ¬((x :: t).drop BATCH_SIZE = []) := by
          intro hc
          have hlc := congrArg List.length hc
          simp only [List.length_drop, List.length_nil] at hlc
          simp only [BATCH_SIZE] at hle hlc
          omega
        have hmaps : ((x :: t).take BATCH_SIZE).map f ++ ((x :: t).drop BATCH_SIZE).map f =
            (x :: t).map f := by
          rw [← List.map_append, List.take_append_drop]
        simp only [fetchMultipleAux, fetchBatch_ok, if_neg hle, ih _ hdroplen,
          if_neg hdropne, hmaps]
        simp only [List.length_cons, BATCH_SIZE] at hle ⊢
        simp
        omega

theorem fetchMultipleAux_error (fetchOne : String → Except String CommitDetail) :
    ∀ (fuel : Nat) (hashes : List String), hashes.length ≤ fuel →
      (∃ h ∈ hashes, ∃ e, fetchOne h = .error e) →
      ∃ e', fetchMultipleAux fetchOne fuel hashes = .error e' := by
  intro fuel
  induction fuel with
  | zero =>
    intro hashes hlen hfail
    have : hashes = [] := List.length_eq_zero.mp (Nat.le_zero.mp hlen)
    subst this
    obtain ⟨h, hm, _⟩ := hfail
    cases hm
  | succ n ih =>
    intro hashes hlen hfail
    cases hashes with
    | nil =>
      obtain ⟨h, hm, _⟩ := hfail
      cases hm
    | cons x t =>
      obtain ⟨h, hm, e, he⟩ := hfail
      cases hbatch : fetchBatch fetchOne ((x :: t).take BATCH_SIZE) with
      | error e' =>
        exact ⟨e', by simp [fetchMultipleAux, hbatch]⟩
      | ok ds =>
        have hmem2 : h ∈ (x :: t).drop BATCH_SIZE := by
          have hsplit := List.take_append_drop BATCH_SIZE (x :: t)
          rw [← hsplit] at hm
          rcases List.mem_append.mp hm with hm1 | hm2
          · obtain ⟨e'', he''⟩ := fetchBatch_error fetchOne _ h hm1 e he
            rw [he''] at hbatch
            cases hbatch
          · exact hm2
        have hlegt : ¬((x :: t).length ≤ BATCH_SIZE) := by
          intro hc
          have : (x :: t).drop BATCH_SIZE = [] := List.drop_eq_nil_of_le hc
          rw [this] at hmem2
          cases hmem2
        have hdroplen : ((x :: t).drop BATCH_SIZE).length ≤ n := by
          simp only [List.length_drop]
          simp only [List.length_cons, BATCH_SIZE] at hlegt hlen ⊢
          omega
        obtain ⟨e', he'⟩ := ih ((x :: t).drop BATCH_SIZE) hdroplen ⟨h, hmem2, e, he⟩
        refine ⟨e', ?_⟩
        simp [fetchMultipleAux, hbatch, he']
        simp only [List.length_cons, BATCH_SIZE] at hlegt ⊢
        omega

/-- **C5 (amended).** `fetchMultipleCommitDetails` processes its
identifiers in sequential batches of at most 5 concurrent fetches with a
settle delay between consecutive batches (when every fetch succeeds the
details come back in input order, one per identifier, with exactly
`⌈n/5⌉ - 1` inter-batch delays); but the failure of the fetch for a
single identifier rejects the **whole** call — no partial results are
returned — and the caller (`executeToolCalls`) catches the rejection and
converts the entire tool invocation into an error string. -/
theorem fetch_multiple_batch_contract
    (f : String → CommitDetail) (fetchOne : String → Except String CommitDetail)
    (hashes : List String) (env : ToolEnv) (tc : ToolCall) :
    (fetchMultipleCommitDetails (fun h => .ok (f h)) hashes =
      .ok (hashes.map f, if hashes = [] then 0 else (hashes.length + 4) / 5 - 1)) ∧
    ((∃ h ∈ hashes, ∃ e, fetchOne h = .error e) →
      ∃ e', fetchMultipleCommitDetails fetchOne hashes = .error e') ∧
    (∀ ids e, tc.name = "get_commit_details" →
      env.decodeArgs tc.arguments = .ok ids →
      fetchMultipleCommitDetails env.fetchOne ids = .error e →
      execToolCall env tc =
        (some ("Tool call error for " ++ tc.name ++ ": " ++ e), [ids])) := by
  refine ⟨fetchMultipleAux_ok f hashes.length hashes le_rfl,
          fetchMultipleAux_error fetchOne hashes.length hashes le_rfl, ?_⟩
  intro ids e hname hdec hfetch
  simp [execToolCall, hname, hdec, hfetch]

/-- Counterexample to C5 as stated: with two identifiers where only the
second one's fetch fails, `fetchMultipleCommitDetails` returns no result
for the first identifier either — the whole call rejects with the
failure. -/
theorem fetch_multiple_single_failure_fails_batch :
    fetchMultipleCommitDetails
      (fun h => if h = "b" then .error "boom"
                else .ok ⟨h, "", "", "", 0, 0, 0, []⟩)
      ["a", "b"] = .error "boom" := by
  rfl

/-- Witness for the amended C5 at concrete inputs: 7 identifiers, all
succeeding, give 7 details in order in two batches with one settle delay;
and a failing identifier rejects the call, which `executeToolCalls` turns
into the error string. -/
theorem fetch_multiple_batch_contract_witness :
    fetchMultipleCommitDetails
        (fun h => .ok ⟨h, "", "", "", 0, 0, 0, []⟩)
        ["h1", "h2", "h3", "h4", "h5", "h6", "h7"] =
      .ok (["h1", "h2", "h3", "h4", "h5", "h6", "h7"].map
            (fun h => (⟨h, "", "", "", 0, 0, 0, []⟩ : CommitDetail)),
           1) ∧
    execToolCall
        ⟨fun _ => .ok ["a", "b"],
         fun h => if h = "b" then .error "boom" else .ok ⟨h, "", "", "", 0, 0, 0, []⟩,
         fun _ => ""⟩
        ⟨"id1", "get_commit_details", "{}"⟩ =
      (some "Tool call error for get_commit_details: boom", [["a", "b"]]) := by
  constructor
  · have h := (fetch_multiple_batch_contract
      (fun h => (⟨h, "", "", "", 0, 0, 0, []⟩ : CommitDetail))
      (fun h => .ok ⟨h, "", "", "", 0, 0, 0, []⟩)
      ["h1", "h2", "h3", "h4", "h5", "h6", "h7"]
      ⟨fun _ => .ok [], fun _ => .error "", fun _ => ""⟩
      ⟨"", "", ""⟩).1
    simpa using h
  · have h := (fetch_multiple_batch_contract
      (fun h => (⟨h, "", "", "", 0, 0, 0, []⟩ : CommitDetail))
      (fun h => .ok ⟨h, "", "", "", 0, 0, 0, []⟩)
      []
      ⟨fun _ => .ok ["a", "b"],
       fun h => if h = "b" then .error "boom" else .ok ⟨h, "", "", "", 0, 0, 0, []⟩,
       fun _ => ""⟩
      ⟨"id1", "get_commit_details", "{}"⟩).2.2 ["a", "b"] "boom" rfl rfl (by rfl)
    exact h

/-! ### Shared facts about the strategy state machine -/

/-- `env.script` never throws (the provider, behind its retry wrapper,
always returns a response). -/
def ScriptTotal (env : StrategyEnv) : Prop :=
  ∀ n opts, ∃ r, env.script n opts = .ok r

theorem addToolResponses_fields (rs : List String) :
    ∀ st : StratState,
      (addToolResponses st rs).messages =
        st.messages ++ rs.map (fun r => ⟨.tool, r, []⟩) ∧
      (addToolResponses st rs).addLog =
        st.addLog ++ rs.map (fun r => ⟨.tool, r, []⟩) ∧
      (addToolResponses st rs).callCount = st.callCount ∧
      (addToolResponses st rs).callLog = st.callLog ∧
      (addToolResponses st rs).toolExecLog = st.toolExecLog ∧
      (addToolResponses st rs).fetchLog = st.fetchLog ∧
      (addToolResponses st rs).processedChunks = st.processedChunks := by
  induction rs with
  | nil => intro st; simp [addToolResponses]
  | cons r rs ih =>
    intro st
    have h := ih (doAddMessage st .tool r [])
    simp only [addToolResponses] at h ⊢
    simp only [List.foldl_cons]
    refine ⟨?_, ?_, ?_, ?_, ?_, ?_, ?_⟩
    · rw [h.1]; simp [doAddMessage]
    · rw [h.2.1]; simp [doAddMessage]
    · rw [h.2.2.1]; simp [doAddMessage]
    · rw [h.2.2.2.1]; simp [doAddMessage]
    · rw [h.2.2.2.2.1]; simp [doAddMessage]
    · rw [h.2.2.2.2.2.1]; simp [doAddMessage]
    · rw [h.2.2.2.2.2.2]; simp [doAddMessage]

/-- Full accounting of one run of the per-chunk agentic loop: `k` calls
were made, all with the chunk's tools-enabled options, `k` is bounded by
the fuel, `k` equals the fuel exactly when the loop exhausted its budget
(`.ok none`), and a natural completion returns the content of the last
response, which carried no tool calls. -/
theorem chunkInvestLoop_spec (env : StrategyEnv) :
    ∀ (fuel : Nat) (st : StratState) (out : Except String (Option String)) (st' : StratState),
    chunkInvestLoop env fuel st = (out, st') →
    ∃ (k : Nat) (msgs : List Message),
      k ≤ fuel ∧
      st'.callLog = st.callLog ++ List.replicate k chunkCallOptions ∧
      st'.callCount = st.callCount + k ∧
      st'.addLog = st.addLog ++ msgs ∧
      st'.messages = st.messages ++ msgs ∧
      st'.processedChunks = st.processedChunks ∧
      (out = .ok none → k = fuel) ∧
      (∀ s, out = .ok (some s) →
        ∃ r, env.script (st.callCount + k - 1) chunkCallOptions = .ok r ∧
          r.toolCalls = [] ∧ s = r.content) := by
  intro fuel
  induction fuel with
  | zero =>
    intro st out st' h
    simp only [chunkInvestLoop, Prod.mk.injEq] at h
    refine ⟨0, [], le_refl 0, ?_, ?_, ?_, ?_, ?_, ?_, ?_⟩ <;>
      simp [← h.1, ← h.2]
  | succ n ih =>
    intro st out st' h
    cases hscr : env.script st.callCount chunkCallOptions with
    | error e =>
      simp only [chunkInvestLoop, doCallAPI, hscr, Prod.mk.injEq] at h
      refine ⟨1, [], by omega, ?_, ?_, ?_, ?_, ?_, ?_, ?_⟩ <;>
        simp [← h.1, ← h.2]
    | ok resp =>
      cases hempty : resp.toolCalls.isEmpty with
      | true =>
        simp only [chunkInvestLoop, doCallAPI, hscr, hempty, Bool.true_eq,
          if_true, Prod.mk.injEq] at h
        refine ⟨1, [], by omega, ?_, ?_, ?_, ?_, ?_, ?_, ?_⟩
        · simp [← h.2]
        · simp [← h.2]
        · simp [← h.2]
        · simp [← h.2]
        · simp [← h.2]
        · intro hc; rw [← h.1] at hc; cases hc
        · intro s hs
          rw [← h.1] at hs
          injection hs with h5
          injection h5 with h6
          exact ⟨resp, by simpa using hscr, List.isEmpty_iff.mp hempty, h6.symm⟩
      | false =>
        simp only [chunkInvestLoop, doCallAPI, hscr, hempty, Bool.false_eq_true,
          if_false] at h
        set tf := executeToolCalls env.toolEnv resp.toolCalls with htf
        obtain ⟨k', msgs', hk', hcl, hcc, hal, hms, hpc, hnone, hsome⟩ := ih _ _ _ h
        have h4 := addToolResponses_fields tf.1
          (recordToolExec (doAddMessage
            { st with callCount := st.callCount + 1,
                      callLog := st.callLog ++ [chunkCallOptions] }
            .assistant resp.content resp.toolCalls) resp.toolCalls tf.2)
        simp only [recordToolExec, doAddMessage] at h4 hcl hcc hal hms hpc hsome
        obtain ⟨f1, f2, f3, f4, f5, f6, f7⟩ := h4
        rw [f4] at hcl
        rw [f3] at hcc hsome
        rw [f2] at hal
        rw [f1] at hms
        rw [f7] at hpc
        refine ⟨k' + 1,
          (⟨.assistant, resp.content, resp.toolCalls⟩ ::
            tf.1.map (fun r => ⟨.tool, r, []⟩)) ++ msgs',
          by omega, ?_, ?_, ?_, ?_, ?_, ?_, ?_⟩
        · rw [hcl, List.replicate_succ]
          simp
        · rw [hcc]; omega
        · rw [hal]; simp
        · rw [hms]; simp
        · exact hpc
        · intro hc
          have := hnone hc
          omega
        · intro s hs
          obtain ⟨r, hr, hrt, hsc⟩ := hsome s hs
          refine ⟨r, ?_, hrt, hsc⟩
          have heq : st.callCount + 1 + k' - 1 = st.callCount + (k' + 1) - 1 := by omega
          rw [← heq]
          exact hr

/-- Accounting for the non-chunked investigation loop: at most `fuel`
calls, all with the tools-enabled non-JSON investigation options. -/
theorem investigationLoop_spec (env : StrategyEnv) :
    ∀ (fuel : Nat) (st : StratState) (out : Except String Unit) (st' : StratState),
    investigationLoop env fuel st = (out, st') →
    ∃ (k : Nat) (msgs : List Message),
      k ≤ fuel ∧
      st'.callLog = st.callLog ++ List.replicate k investCallOptions ∧
      st'.callCount = st.callCount + k ∧
      st'.addLog = st.addLog ++ msgs ∧
      st'.messages = st.messages ++ msgs ∧
      st'.processedChunks = st.processedChunks := by
  intro fuel
  induction fuel with
  | zero =>
    intro st out st' h
    simp only [investigationLoop, Prod.mk.injEq] at h
    refine ⟨0, [], le_refl 0, ?_, ?_, ?_, ?_, ?_⟩ <;> simp [← h.2]
  | succ n ih =>
    intro st out st' h
    cases hscr : env.script st.callCount investCallOptions with
    | error e =>
      simp only [investigationLoop, doCallAPI, hscr, Prod.mk.injEq] at h
      refine ⟨1, [], by omega, ?_, ?_, ?_, ?_, ?_⟩ <;> simp [← h.2]
    | ok resp =>
      cases hempty : resp.toolCalls.isEmpty with
      | true =>
        simp only [investigationLoop, doCallAPI, hscr, hempty, Bool.true_eq,
          if_true, Prod.mk.injEq] at h
        refine ⟨1, [], by omega, ?_, ?_, ?_, ?_, ?_⟩ <;> simp [← h.2]
      | false =>
        simp only [investigationLoop, doCallAPI, hscr, hempty, Bool.false_eq_true,
          if_false] at h
        set tf := executeToolCalls env.toolEnv resp.toolCalls with htf
        obtain ⟨k', msgs', hk', hcl, hcc, hal, hms, hpc⟩ := ih _ _ _ h
        have h4 := addToolResponses_fields tf.1
          (recordToolExec (doAddMessage
            { st with callCount := st.callCount + 1,
                      callLog := st.callLog ++ [investCallOptions] }
            .assistant resp.content resp.toolCalls) resp.toolCalls tf.2)
        simp only [recordToolExec, doAddMessage] at h4 hcl hcc hal hms hpc
        obtain ⟨f1, f2, f3, f4, f5, f6, f7⟩ := h4
        rw [f4] at hcl
        rw [f3] at hcc
        rw [f2] at hal
        rw [f1] at hms
        rw [f7] at hpc
        refine ⟨k' + 1,
          (⟨.assistant, resp.content, resp.toolCalls⟩ ::
            tf.1.map (fun r => ⟨.tool, r, []⟩)) ++ msgs',
          by omega, ?_, ?_, ?_, ?_, ?_⟩
        · rw [hcl, List.replicate_succ]
          simp
        · rw [hcc]; omega
        · rw [hal]; simp
        · rw [hms]; simp
        · exact hpc

/-- If the script never throws, the per-chunk loop never throws. -/
theorem chunkInvestLoop_total (env : StrategyEnv)
    (h : ∀ n, ∃ r, env.script n chunkCallOptions = .ok r) :
    ∀ (fuel : Nat) (st : StratState),
      ∃ o st', chunkInvestLoop env fuel st = (.ok o, st') := by
  intro fuel
  induction fuel with
  | zero => intro st; exact ⟨none, st, rfl⟩
  | succ n ih =>
    intro st
    obtain ⟨r, hr⟩ := h st.callCount
    cases hemp : r.toolCalls.isEmpty with
    | true =>
      refine ⟨some r.content,
        { st with callCount := st.callCount + 1,
                  callLog := st.callLog ++ [chunkCallOptions] }, ?_⟩
      simp [chunkInvestLoop, doCallAPI, hr, hemp]
    | false =>
      simp only [chunkInvestLoop, doCallAPI, hr, hemp, Bool.false_eq_true, if_false]
      exact ih _

/-- If the script never throws, the non-chunked loop never throws. -/
theorem investigationLoop_total (env : StrategyEnv)
    (h : ∀ n, ∃ r, env.script n investCallOptions = .ok r) :
    ∀ (fuel : Nat) (st : StratState),
      ∃ st', investigationLoop env fuel st = (.ok (), st') := by
  intro fuel
  induction fuel with
  | zero => intro st; exact ⟨st, rfl⟩
  | succ n ih =>
    intro st
    obtain ⟨r, hr⟩ := h st.callCount
    cases hemp : r.toolCalls.isEmpty with
    | true =>
      refine ⟨{ st with callCount := st.callCount + 1,
                        callLog := st.callLog ++ [investCallOptions] }, ?_⟩
      simp [investigationLoop, doCallAPI, hr, hemp]
    | false =>
      simp only [investigationLoop, doCallAPI, hr, hemp, Bool.false_eq_true, if_false]
      exact ih _

/-- If every tools-enabled chunk call returns tool invocations, the
per-chunk loop exhausts its entire budget and completes with `none`. -/
theorem chunkInvestLoop_all_tools (env : StrategyEnv)
    (h : ∀ n, ∃ r, env.script n chunkCallOptions = .ok r ∧ r.toolCalls ≠ []) :
    ∀ (fuel : Nat) (st : StratState),
      ∃ st', chunkInvestLoop env fuel st = (.ok none, st') ∧
        st'.callCount = st.callCount + fuel := by
  intro fuel
  induction fuel with
  | zero => intro st; exact ⟨st, rfl, by omega⟩
  | succ n ih =>
    intro st
    obtain ⟨r, hr, hne⟩ := h st.callCount
    have hemp : r.toolCalls.isEmpty = false := by
      cases hE : r.toolCalls.isEmpty
      · rfl
      · exact absurd (List.isEmpty_iff.mp hE) hne
    simp only [chunkInvestLoop, doCallAPI, hr, hemp, Bool.false_eq_true, if_false]
    set tf := executeToolCalls env.toolEnv r.toolCalls with htf
    obtain ⟨st', hrun, hcc⟩ := ih (addToolResponses
      (recordToolExec (doAddMessage
        { st with callCount := st.callCount + 1,
                  callLog := st.callLog ++ [chunkCallOptions] }
        .assistant r.content r.toolCalls) r.toolCalls tf.2) tf.1)
    have h4 := addToolResponses_fields tf.1
      (recordToolExec (doAddMessage
        { st with callCount := st.callCount + 1,
                  callLog := st.callLog ++ [chunkCallOptions] }
        .assistant r.content r.toolCalls) r.toolCalls tf.2)
    simp only [recordToolExec, doAddMessage] at h4 hcc hrun
    rw [h4.2.2.1] at hcc
    refine ⟨st', hrun, by omega⟩

/-! ### C3 — iteration cap and fallback -/

/-- **C3 (amended).** In `generateSummaryWithStrategy`'s chunked path,
one chunk's investigation makes at most `MAX_ITERATIONS` tools-enabled
adapter calls, plus at most one tools-disabled fallback call which occurs
exactly when the cap was exhausted; when every tools-enabled response
carries tool calls (the cap is reached without natural completion), the
chunk summary is the fallback call's response text — whatever string the
adapter returns — with the fallback prompt appended as a user turn, and a
script that never throws can never make the chunk processing throw (the
cap itself never raises).  (The older Gemini-specific engine's
`generateChunkSummary` instead throws at its cap — see the
counterexample.) -/
theorem chunk_cap_fallback_contract (env : StrategyEnv)
    (chunk : List GitilesCommit) (st : StratState) :
    (∀ res st', processChunk env chunk st = (res, st') →
      ∃ k extra, k ≤ MAX_ITERATIONS ∧
        st'.callLog = st.callLog ++ List.replicate k chunkCallOptions ++ extra ∧
        (extra = [] ∨ (k = MAX_ITERATIONS ∧ extra = [chunkFallbackOptions]))) ∧
    ((∀ n, ∃ r, env.script n chunkCallOptions = .ok r ∧ r.toolCalls ≠ []) →
      ∀ rf, env.script (st.callCount + MAX_ITERATIONS) chunkFallbackOptions = .ok rf →
      ∃ st', processChunk env chunk st = (.ok rf.content, st') ∧
        (⟨.user, fallbackPrompt, []⟩ : Message) ∈ st'.addLog) ∧
    (ScriptTotal env → ∃ s st', processChunk env chunk st = (.ok s, st')) := by
  refine ⟨?_, ?_, ?_⟩
  · intro res st' h
    rw [processChunk] at h
    rcases hloop : chunkInvestLoop env MAX_ITERATIONS
      (doAddMessage (doReset st) .user
        (env.agenticPrompt chunk chunk.length chunk.length chunk.head? chunk.getLast?) [])
      with ⟨lout, lst⟩
    obtain ⟨k, msgs, hk, hcl, hcc, _, _, _, hnone, _⟩ :=
      chunkInvestLoop_spec env MAX_ITERATIONS _ _ _ hloop
    have hcl' : lst.callLog = st.callLog ++ List.replicate k chunkCallOptions := by
      rw [hcl]; simp [doAddMessage, doReset]
    rw [hloop] at h
    cases lout with
    | error e =>
      simp only [Prod.mk.injEq] at h
      exact ⟨k, [], hk, by rw [← h.2, hcl']; simp, Or.inl rfl⟩
    | ok o =>
      cases o with
      | some s =>
        simp only [Prod.mk.injEq] at h
        exact ⟨k, [], hk, by rw [← h.2, hcl']; simp, Or.inl rfl⟩
      | none =>
        have hkfull : k = MAX_ITERATIONS := hnone rfl
        simp only [doCallAPI] at h
        cases hscr : env.script
            (doAddMessage lst .user fallbackPrompt []).callCount chunkFallbackOptions with
        | error e =>
          rw [hscr] at h
          simp only [Prod.mk.injEq] at h
          refine ⟨k, [chunkFallbackOptions], hk, ?_, Or.inr ⟨hkfull, rfl⟩⟩
          rw [← h.2]
          simp [doAddMessage, hcl']
        | ok rf =>
          rw [hscr] at h
          simp only [Prod.mk.injEq] at h
          refine ⟨k, [chunkFallbackOptions], hk, ?_, Or.inr ⟨hkfull, rfl⟩⟩
          rw [← h.2]
          simp [doAddMessage, hcl']
  · intro hall rf hrf
    obtain ⟨lst, hrun, hcc⟩ := chunkInvestLoop_all_tools env hall MAX_ITERATIONS
      (doAddMessage (doReset st) .user
        (env.agenticPrompt chunk chunk.length chunk.length chunk.head? chunk.getLast?) [])
    have hcc' : lst.callCount = st.callCount + MAX_ITERATIONS := by
      rw [hcc]; simp [doAddMessage, doReset]
    have hcc2 : (doAddMessage lst .user fallbackPrompt []).callCount =
        st.callCount + MAX_ITERATIONS := by
      simp [doAddMessage, hcc']
    refine ⟨{ doAddMessage lst .user fallbackPrompt [] with
        callCount := (doAddMessage lst .user fallbackPrompt []).callCount + 1,
        callLog := (doAddMessage lst .user fallbackPrompt []).callLog ++
          [chunkFallbackOptions] }, ?_, ?_⟩
    · rw [processChunk, hrun]
      simp only [doCallAPI, hcc2, hrf]
    · simp [doAddMessage]
  · intro htot
    obtain ⟨o, lst, hrun⟩ := chunkInvestLoop_total env
      (fun n => htot n chunkCallOptions) MAX_ITERATIONS
      (doAddMessage (doReset st) .user
        (env.agenticPrompt chunk chunk.length chunk.length chunk.head? chunk.getLast?) [])
    cases o with
    | some s =>
      exact ⟨s, lst, by rw [processChunk, hrun]⟩
    | none =>
      obtain ⟨rf, hrf⟩ := htot
        (doAddMessage lst .user fallbackPrompt []).callCount chunkFallbackOptions
      refine ⟨rf.content,
        { doAddMessage lst .user fallbackPrompt [] with
          callCount := (doAddMessage lst .user fallbackPrompt []).callCount + 1,
          callLog := (doAddMessage lst .user fallbackPrompt []).callLog ++
            [chunkFallbackOptions] }, ?_⟩
      rw [processChunk, hrun]
      simp only [doCallAPI, hrf]

/-- Counterexample to C3 as stated: the older Gemini engine's
`generateChunkSummary` (part_001), driven by a scripted model that
requests tool details on every one of its 5 iterations, **throws**
`Max iterations reached in chunk summary` instead of producing a fallback
summary. -/
theorem chunk_summary_throws_at_cap :
    generateChunkSummary
      (fun _ _ _ => .ok ⟨[], [⟨"get_commit_details", ["h"]⟩], ""⟩)
      (fun h => .ok ⟨h, "", "", "", 0, 0, 0, []⟩)
      "prompt" 0 =
    .error (.thrown "Max iterations reached in chunk summary") := by
  rfl

/-- Witness for the amended C3 at a concrete scripted adapter whose
tools-enabled responses always carry a tool call: the chunk summary is
the fallback call's text and the fallback prompt was appended. -/
theorem chunk_cap_fallback_contract_witness :
    ∃ st', processChunk
      ⟨⟨fun _ => .ok ["h"], fun h => .ok ⟨h, "", "", "", 0, 0, 0, []⟩, fun _ => ""⟩,
       fun _ opts => if opts.enableTools then
           .ok ⟨"working", [⟨"id", "get_commit_details", "{}"⟩]⟩
         else .ok ⟨"fallback summary", []⟩,
       fun _ _ _ _ _ => "", fun _ _ _ _ _ => "", ""⟩
      [] initState = (.ok "fallback summary", st') ∧
      (⟨.user, fallbackPrompt, []⟩ : Message) ∈ st'.addLog := by
  exact (chunk_cap_fallback_contract _ [] initState).2.1
    (fun n => ⟨⟨"working", [⟨"id", "get_commit_details", "{}"⟩]⟩, rfl, by simp⟩)
    ⟨"fallback summary", []⟩ rfl

/-! ### C2 — chunking arithmetic and the chunked run shape -/

theorem chunksOfAux_join (n : Nat) (hn : 0 < n) :
    ∀ (fuel : Nat) (l : List α), l.length ≤ fuel →
      (chunksOfAux n fuel l).join = l := by
  intro fuel
  induction fuel with
  | zero =>
    intro l hl
    have : l = [] := List.length_eq_zero.mp (Nat.le_zero.mp hl)
    subst this
    rfl
  | succ f ih =>
    intro l hl
    cases l with
    | nil => rfl
    | cons x t =>
      have hd : ((x :: t).drop n).length ≤ f := by
        simp only [List.length_drop, List.length_cons] at hl ⊢
        omega
      simp only [chunksOfAux, List.join_cons, ih _ hd, List.take_append_drop]

theorem chunksOfAux_length250 :
    ∀ (fuel : Nat) (l : List α), l.length ≤ fuel →
      (chunksOfAux 250 fuel l).length = (l.length + 249) / 250 := by
  intro fuel
  induction fuel with
  | zero =>
    intro l hl
    have : l = [] := List.length_eq_zero.mp (Nat.le_zero.mp hl)
    subst this
    simp only [chunksOfAux, List.length_nil]
  | succ f ih =>
    intro l hl
    cases l with
    | nil =>
      simp only [chunksOfAux, List.length_nil]
    | cons x t =>
      have hd : ((x :: t).drop 250).length ≤ f := by
        simp only [List.length_drop, List.length_cons] at hl ⊢
        omega
      simp only [chunksOfAux, List.length_cons, ih _ hd, List.length_drop,
        List.length_cons]
      omega

theorem chunksOfAux_mem_size :
    ∀ (fuel : Nat) (l : List α), l.length ≤ fuel →
      ∀ c ∈ chunksOfAux 250 fuel l, 0 < c.length ∧ c.length ≤ 250 := by
  intro fuel
  induction fuel with
  | zero =>
    intro l hl c hc
    have : l = [] := List.length_eq_zero.mp (Nat.le_zero.mp hl)
    subst this
    cases hc
  | succ f ih =>
    intro l hl c hc
    cases l with
    | nil => cases hc
    | cons x t =>
      have hd : ((x :: t).drop 250).length ≤ f := by
        simp only [List.length_drop, List.length_cons] at hl ⊢
        omega
      simp only [chunksOfAux] at hc
      rcases List.mem_cons.mp hc with hc | hc
      · subst hc
        simp only [List.length_take, List.length_cons]
        omega
      · exact ih _ hd c hc

theorem chunksOfAux_ne_nil (fuel : Nat) (l : List α) (hl : l.length ≤ fuel)
    (hne : l ≠ []) : chunksOfAux 250 fuel l ≠ [] := by
  cases l with
  | nil => exact absurd rfl hne
  | cons x t =>
    cases fuel with
    | zero => simp at hl
    | succ f => simp [chunksOfAux]

theorem chunksOfAux_dropLast :
    ∀ (fuel : Nat) (l : List α), l.length ≤ fuel →
      ∀ c ∈ (chunksOfAux 250 fuel l).dropLast, c.length = 250 := by
  intro fuel
  induction fuel with
  | zero =>
    intro l hl c hc
    have : l = [] := List.length_eq_zero.mp (Nat.le_zero.mp hl)
    subst this
    cases hc
  | succ f ih =>
    intro l hl c hc
    cases l with
    | nil => cases hc
    | cons x t =>
      have hd : ((x :: t).drop 250).length ≤ f := by
        simp only [List.length_drop, List.length_cons] at hl ⊢
        omega
      by_cases hdn : (x :: t).drop 250 = []
      · simp only [chunksOfAux, hdn] at hc
        cases f with
        | zero => simp at hc
        | succ f' => simp [chunksOfAux] at hc
      · have hrest := chunksOfAux_ne_nil f _ hd hdn
        simp only [chunksOfAux] at hc
        rw [List.dropLast_cons_of_ne_nil hrest] at hc
        rcases List.mem_cons.mp hc with hc | hc
        · subst hc
          have : 250 < (x :: t).length := by
            by_contra hcon
            exact hdn (List.drop_eq_nil_of_le (by omega))
          simp only [List.length_take]
          omega
        · exact ih _ hd c hc

theorem processChunk_calls (env : StrategyEnv)
    (chunk : List GitilesCommit) (st : StratState) :
    ∀ res st', processChunk env chunk st = (res, st') →
      ∃ calls, st'.callLog = st.callLog ++ calls ∧
        (∀ o ∈ calls, o.requestJson = false) ∧
        st'.processedChunks = st.processedChunks := by
  intro res st' h
  rw [processChunk] at h
  rcases hloop : chunkInvestLoop env MAX_ITERATIONS
    (doAddMessage (doReset st) .user
      (env.agenticPrompt chunk chunk.length chunk.length chunk.head? chunk.getLast?) [])
    with ⟨lout, lst⟩
  obtain ⟨k, msgs, hk, hcl, hcc, _, _, hpc, hnone, _⟩ :=
    chunkInvestLoop_spec env MAX_ITERATIONS _ _ _ hloop
  have hcl' : lst.callLog = st.callLog ++ List.replicate k chunkCallOptions := by
    rw [hcl]; simp [doAddMessage, doReset]
  have hpc' : lst.processedChunks = st.processedChunks := by
    rw [hpc]; simp [doAddMessage, doReset]
  have hrepl : ∀ o ∈ List.replicate k chunkCallOptions, o.requestJson = false := by
    intro o ho
    rw [List.eq_of_mem_replicate ho]
    rfl
  rw [hloop] at h
  cases lout with
  | error e =>
    simp only [Prod.mk.injEq] at h
    exact ⟨List.replicate k chunkCallOptions, by rw [← h.2, hcl'], hrepl, by rw [← h.2, hpc']⟩
  | ok o =>
    cases o with
    | some s =>
      simp only [Prod.mk.injEq] at h
      exact ⟨List.replicate k chunkCallOptions, by rw [← h.2, hcl'], hrepl, by rw [← h.2, hpc']⟩
    | none =>
      simp only [doCallAPI] at h
      cases hscr : env.script
          (doAddMessage lst .user fallbackPrompt []).callCount chunkFallbackOptions with
      | error e =>
        rw [hscr] at h
        simp only [Prod.mk.injEq] at h
        refine ⟨List.replicate k chunkCallOptions ++ [chunkFallbackOptions], ?_, ?_, ?_⟩
        · rw [← h.2]; simp [doAddMessage, hcl']
        · intro o ho
          rcases List.mem_append.mp ho with ho | ho
          · exact hrepl o ho
          · rw [List.mem_singleton.mp ho]; rfl
        · rw [← h.2]; simp [doAddMessage, hpc']
      | ok rf =>
        rw [hscr] at h
        simp only [Prod.mk.injEq] at h
        refine ⟨List.replicate k chunkCallOptions ++ [chunkFallbackOptions], ?_, ?_, ?_⟩
        · rw [← h.2]; simp [doAddMessage, hcl']
        · intro o ho
          rcases List.mem_append.mp ho with ho | ho
          · exact hrepl o ho
          · rw [List.mem_singleton.mp ho]; rfl
        · rw [← h.2]; simp [doAddMessage, hpc']

theorem processChunk_total (env : StrategyEnv) (htot : ScriptTotal env)
    (chunk : List GitilesCommit) (st : StratState) :
    ∃ s st', processChunk env chunk st = (.ok s, st') := by
  obtain ⟨o, lst, hrun⟩ := chunkInvestLoop_total env
    (fun n => htot n chunkCallOptions) MAX_ITERATIONS
    (doAddMessage (doReset st) .user
      (env.agenticPrompt chunk chunk.length chunk.length chunk.head? chunk.getLast?) [])
  cases o with
  | some s => exact ⟨s, lst, by rw [processChunk, hrun]⟩
  | none =>
    obtain ⟨rf, hrf⟩ := htot
      (doAddMessage lst .user fallbackPrompt []).callCount chunkFallbackOptions
    refine ⟨rf.content,
      { doAddMessage lst .user fallbackPrompt [] with
        callCount := (doAddMessage lst .user fallbackPrompt []).callCount + 1,
        callLog := (doAddMessage lst .user fallbackPrompt []).callLog ++
          [chunkFallbackOptions] }, ?_⟩
    rw [processChunk, hrun]
    simp only [doCallAPI, hrf]

theorem processChunks_ok (env : StrategyEnv) :
    ∀ (chunks : List (List GitilesCommit)) (st : StratState)
      (ss : List String) (st' : StratState),
      processChunks env chunks st = (.ok ss, st') →
      ss.length = chunks.length ∧
      st'.processedChunks = st.processedChunks ++ chunks ∧
      ∃ calls, st'.callLog = st.callLog ++ calls ∧
        (∀ o ∈ calls, o.requestJson = false) := by
  intro chunks
  induction chunks with
  | nil =>
    intro st ss st' h
    simp only [processChunks, Prod.mk.injEq] at h
    obtain ⟨h1, h2⟩ := h
    injection h1 with h1
    subst h1 h2
    exact ⟨rfl, by simp, [], by simp, by simp⟩
  | cons c rest ih =>
    intro st ss st' h
    rw [processChunks] at h
    rcases hpc : processChunk env c
        { st with processedChunks := st.processedChunks ++ [c] } with ⟨res1, st1⟩
    cases res1 with
    | error e =>
      simp only [hpc, Prod.mk.injEq] at h
      cases h.1
    | ok s =>
      simp only [hpc] at h
      rcases hrest : processChunks env rest st1 with ⟨res2, st2⟩
      cases res2 with
      | error e =>
        simp only [hrest, Prod.mk.injEq] at h
        cases h.1
      | ok ss2 =>
        simp only [hrest, Prod.mk.injEq] at h
        obtain ⟨h1, h2⟩ := h
        injection h1 with h1
        subst h1 h2
        obtain ⟨hl2, hp2, calls2, hc2, hcf2⟩ := ih st1 ss2 st2 hrest
        obtain ⟨calls1, hc1, hcf1, hp1⟩ := processChunk_calls env c _ _ _ hpc
        refine ⟨by simp [hl2], ?_, calls1 ++ calls2, ?_, ?_⟩
        · rw [hp2, hp1]
          simp
        · rw [hc2, hc1]
          simp
        · intro o ho
          rcases List.mem_append.mp ho with ho | ho
          · exact hcf1 o ho
          · exact hcf2 o ho

theorem processChunks_total (env : StrategyEnv) (htot : ScriptTotal env) :
    ∀ (chunks : List (List GitilesCommit)) (st : StratState),
      ∃ ss st', processChunks env chunks st = (.ok ss, st') := by
  intro chunks
  induction chunks with
  | nil => intro st; exact ⟨[], st, rfl⟩
  | cons c rest ih =>
    intro st
    obtain ⟨s, st1, h1⟩ := processChunk_total env htot c
      { st with processedChunks := st.processedChunks ++ [c] }
    obtain ⟨ss2, st2, h2⟩ := ih st1
    refine ⟨s :: ss2, st2, ?_⟩
    simp [processChunks, h1, h2]

theorem finalJsonStep_ok (env : StrategyEnv) (st : StratState)
    (rj : APIResponse) (j : Js)
    (hrj : env.script (doAddMessage st .user env.finalJsonPrompt []).callCount
      finalJsonOptions = .ok rj)
    (hj : jsonParse rj.content = some j) :
    finalJsonStep env st = (.ok j,
      { doAddMessage st .user env.finalJsonPrompt [] with
        callCount := (doAddMessage st .user env.finalJsonPrompt []).callCount + 1,
        callLog := (doAddMessage st .user env.finalJsonPrompt []).callLog ++
          [finalJsonOptions] }) := by
  rw [finalJsonStep]
  simp only [doCallAPI, hrj, hj]

theorem finalJsonStep_err (env : StrategyEnv) (st : StratState)
    (rj : APIResponse)
    (hrj : env.script (doAddMessage st .user env.finalJsonPrompt []).callCount
      finalJsonOptions = .ok rj)
    (hj : jsonParse rj.content = none) :
    finalJsonStep env st = (.error (.malformedResponse rj.content),
      { doAddMessage st .user env.finalJsonPrompt [] with
        callCount := (doAddMessage st .user env.finalJsonPrompt []).callCount + 1,
        callLog := (doAddMessage st .user env.finalJsonPrompt []).callLog ++
          [finalJsonOptions] }) := by
  rw [finalJsonStep]
  simp only [doCallAPI, hrj, hj]

theorem generateSummary_chunked (env : StrategyEnv) (commits : List GitilesCommit)
    (total relevant : Nat) (first lastc : GitilesCommit)
    (ss : List String) (st1 : StratState)
    (hgt : commits.length > CHUNK_THRESHOLD)
    (h1 : processChunks env (chunksOf CHUNK_SIZE commits) (doReset initState) =
      (.ok ss, st1)) :
    generateSummaryWithStrategy env commits total relevant first lastc =
      finalJsonStep env (doAddMessage (doReset st1) .user
        (env.finalChunksPrompt ss total relevant first lastc) []) := by
  rw [generateSummaryWithStrategy]
  simp only [if_pos hgt, h1]

theorem generateSummary_nonchunked (env : StrategyEnv) (commits : List GitilesCommit)
    (total relevant : Nat) (first lastc : GitilesCommit) (stL : StratState)
    (hle : ¬(commits.length > CHUNK_THRESHOLD))
    (hloop : investigationLoop env MAX_ITERATIONS
      (doAddMessage (doReset initState) .user
        (env.agenticPrompt commits total relevant (some first) (some lastc)) []) =
      (.ok (), stL)) :
    generateSummaryWithStrategy env commits total relevant first lastc =
      finalJsonStep env stL := by
  rw [generateSummaryWithStrategy]
  simp only [if_neg hle, hloop]

/-- **C2.** For a batch exceeding the chunk threshold the strategy splits
it into exactly `⌈size / 250⌉` chunks whose in-order concatenation is the
original batch, every chunk but possibly the last having exactly 250
records; and for a 520-record batch a (non-throwing, JSON-producing)
scripted run yields chunks of sizes 250, 250, 20 processed in that order,
with exactly one synthesis prompt appended — immediately before the final
JSON prompt — and the final JSON-mode call the only JSON-mode call. -/
theorem strategy_chunking_contract :
    (∀ (commits : List GitilesCommit), commits.length > CHUNK_THRESHOLD →
      (chunksOf CHUNK_SIZE commits).length = (commits.length + 249) / 250 ∧
      (chunksOf CHUNK_SIZE commits).join = commits ∧
      (∀ c ∈ (chunksOf CHUNK_SIZE commits).dropLast, c.length = 250) ∧
      (∀ c ∈ chunksOf CHUNK_SIZE commits, 0 < c.length ∧ c.length ≤ 250)) ∧
    (∀ (env : StrategyEnv) (commits : List GitilesCommit)
        (total relevant : Nat) (first lastc : GitilesCommit),
      commits.length = 520 → ScriptTotal env →
      (∀ n opts r, opts.requestJson = true → env.script n opts = .ok r →
        jsonParse r.content ≠ none) →
      ∃ j st' summaries preMsgs,
        generateSummaryWithStrategy env commits total relevant first lastc =
          (.ok j, st') ∧
        (chunksOf CHUNK_SIZE commits).map List.length = [250, 250, 20] ∧
        st'.processedChunks = chunksOf CHUNK_SIZE commits ∧
        summaries.length = 3 ∧
        st'.addLog = preMsgs ++
          [⟨.user, env.finalChunksPrompt summaries total relevant first lastc, []⟩,
           ⟨.user, env.finalJsonPrompt, []⟩] ∧
        ∃ preCalls, st'.callLog = preCalls ++ [finalJsonOptions] ∧
          (∀ o ∈ preCalls, o.requestJson = false)) := by
  constructor
  · intro commits hgt
    simp only [chunksOf, CHUNK_SIZE]
    exact ⟨chunksOfAux_length250 commits.length commits le_rfl,
      chunksOfAux_join 250 (by norm_num) commits.length commits le_rfl,
      chunksOfAux_dropLast commits.length commits le_rfl,
      chunksOfAux_mem_size commits.length commits le_rfl⟩
  · intro env commits total relevant first lastc hlen htot hjson
    have hgt : commits.length > CHUNK_THRESHOLD := by
      rw [hlen, CHUNK_THRESHOLD]; norm_num
    have hclen : (chunksOf CHUNK_SIZE commits).length = 3 := by
      rw [chunksOf, CHUNK_SIZE, chunksOfAux_length250 commits.length commits le_rfl,
        hlen]
    have hmap : (chunksOf CHUNK_SIZE commits).map List.length = [250, 250, 20] := by
      obtain ⟨a, b, c, habc⟩ := List.length_eq_three.mp hclen
      have hjoin : (chunksOf CHUNK_SIZE commits).join = commits := by
        rw [chunksOf, CHUNK_SIZE]
        exact chunksOfAux_join 250 (by norm_num) commits.length commits le_rfl
      have hdl : ∀ c ∈ (chunksOf CHUNK_SIZE commits).dropLast, c.length = 250 := by
        intro c hc
        simp only [chunksOf, CHUNK_SIZE] at hc
        exact chunksOfAux_dropLast commits.length commits le_rfl c hc
      have ha : a.length = 250 := hdl a (by rw [habc]; simp)
      have hb : b.length = 250 := hdl b (by rw [habc]; simp)
      have hc : c.length = 20 := by
        have := congrArg List.length hjoin
        rw [habc] at this
        simp only [List.join_cons, List.join_nil, List.length_append,
          List.append_nil, hlen] at this
        omega
      rw [habc]
      simp [ha, hb, hc]
    obtain ⟨ss, st1, h1⟩ :=
      processChunks_total env htot (chunksOf CHUNK_SIZE commits) (doReset initState)
    obtain ⟨hsslen, hpc1, calls1, hcl1, hcf1⟩ :=
      processChunks_ok env (chunksOf CHUNK_SIZE commits) _ ss st1 h1
    obtain ⟨rj, hrj⟩ := htot
      (doAddMessage (doAddMessage (doReset st1) .user
        (env.finalChunksPrompt ss total relevant first lastc) [])
        .user env.finalJsonPrompt []).callCount finalJsonOptions
    have hparse : jsonParse rj.content ≠ none := hjson _ _ _ rfl hrj
    obtain ⟨j, hj⟩ := Option.ne_none_iff_exists'.mp hparse
    have hfin := finalJsonStep_ok env
      (doAddMessage (doReset st1) .user
        (env.finalChunksPrompt ss total relevant first lastc) []) rj j hrj hj
    have hgen := generateSummary_chunked env commits total relevant first lastc
      ss st1 hgt h1
    rw [hfin] at hgen
    refine ⟨j, _, ss, st1.addLog, hgen, hmap, ?_, ?_, ?_, ?_⟩
    · show (doAddMessage (doAddMessage (doReset st1) .user
        (env.finalChunksPrompt ss total relevant first lastc) [])
        .user env.finalJsonPrompt []).processedChunks = chunksOf CHUNK_SIZE commits
      simp only [doAddMessage, doReset]
      rw [hpc1]
      simp [doReset, initState]
    · rw [hsslen, hclen]
    · show (doAddMessage (doAddMessage (doReset st1) .user
        (env.finalChunksPrompt ss total relevant first lastc) [])
        .user env.finalJsonPrompt []).addLog = _
      simp [doAddMessage, doReset]
    · refine ⟨st1.callLog, ?_, ?_⟩
      · show (doAddMessage (doAddMessage (doReset st1) .user
          (env.finalChunksPrompt ss total relevant first lastc) [])
          .user env.finalJsonPrompt []).callLog ++ [finalJsonOptions] = _
        simp [doAddMessage, doReset]
      · intro o ho
        rw [hcl1] at ho
        simp only [doReset, initState] at ho
        rcases List.mem_append.mp ho with ho | ho
        · simp at ho
        · exact hcf1 o ho

/-- Witness for C2: a 520-record batch driven by a scripted adapter that
completes each chunk immediately and answers the JSON call with `1`. -/
theorem strategy_chunking_contract_witness :
    (chunksOf CHUNK_SIZE (List.replicate 520
      (⟨"", "", [], ⟨"", "", ""⟩, ⟨"", "", ""⟩, "", []⟩ : GitilesCommit))).join =
      List.replicate 520 (⟨"", "", [], ⟨"", "", ""⟩, ⟨"", "", ""⟩, "", []⟩ : GitilesCommit) ∧
    ∃ (j : Js) (st' : StratState) (summaries : List String) (preMsgs : List Message),
      generateSummaryWithStrategy
        ⟨⟨fun _ => .ok [], fun h => .ok ⟨h, "", "", "", 0, 0, 0, []⟩, fun _ => ""⟩,
         fun _ opts => if opts.requestJson then .ok ⟨"1", []⟩ else .ok ⟨"s", []⟩,
         fun _ _ _ _ _ => "", fun _ _ _ _ _ => "", ""⟩
        (List.replicate 520 ⟨"", "", [], ⟨"", "", ""⟩, ⟨"", "", ""⟩, "", []⟩)
        520 520 ⟨"", "", [], ⟨"", "", ""⟩, ⟨"", "", ""⟩, "", []⟩
        ⟨"", "", [], ⟨"", "", ""⟩, ⟨"", "", ""⟩, "", []⟩ = (.ok j, st') ∧
      (chunksOf CHUNK_SIZE (List.replicate 520
        (⟨"", "", [], ⟨"", "", ""⟩, ⟨"", "", ""⟩, "", []⟩ : GitilesCommit))).map
          List.length = [250, 250, 20] ∧
      st'.processedChunks = chunksOf CHUNK_SIZE (List.replicate 520
        (⟨"", "", [], ⟨"", "", ""⟩, ⟨"", "", ""⟩, "", []⟩ : GitilesCommit)) ∧
      summaries.length = 3 ∧
      st'.addLog = preMsgs ++ [⟨.user, "", []⟩, ⟨.user, "", []⟩] ∧
      ∃ preCalls, st'.callLog = preCalls ++ [finalJsonOptions] ∧
        (∀ o ∈ preCalls, o.requestJson = false) := by
  have hlen : (List.replicate 520
      (⟨"", "", [], ⟨"", "", ""⟩, ⟨"", "", ""⟩, "", []⟩ : GitilesCommit)).length = 520 :=
    List.length_replicate 520 _
  have hgt : (List.replicate 520
      (⟨"", "", [], ⟨"", "", ""⟩, ⟨"", "", ""⟩, "", []⟩ : GitilesCommit)).length >
      CHUNK_THRESHOLD := by
    rw [hlen, CHUNK_THRESHOLD]; norm_num
  have htot : ScriptTotal
      ⟨⟨fun _ => .ok [], fun h => .ok ⟨h, "", "", "", 0, 0, 0, []⟩, fun _ => ""⟩,
       fun _ opts => if opts.requestJson then .ok ⟨"1", []⟩ else .ok ⟨"s", []⟩,
       fun _ _ _ _ _ => "", fun _ _ _ _ _ => "", ""⟩ := by
    intro n opts
    by_cases h : opts.requestJson = true
    · exact ⟨⟨"1", []⟩, by simp [h]⟩
    · exact ⟨⟨"s", []⟩, by simp [h]⟩
  have hjson : ∀ (n : Nat) (opts : CallOptions) (r : APIResponse),
      opts.requestJson = true →
      (fun (_ : Nat) (opts : CallOptions) =>
        if opts.requestJson then
          (Except.ok (⟨"1", []⟩ : APIResponse) : Except String APIResponse)
        else .ok ⟨"s", []⟩) n opts = .ok r →
      jsonParse r.content ≠ none := by
    intro n opts r hrq hr
    simp only [hrq, if_true] at hr
    injection hr with hr
    rw [← hr]
    intro hcon
    rw [show jsonParse "1" = some (.num "1") from rfl] at hcon
    cases hcon
  obtain ⟨j, st', ss, preMsgs, hgen, hmap, hpc, hsl, hal, hcl⟩ :=
    strategy_chunking_contract.2 _ _ 520 520 _ _ hlen htot hjson
  exact ⟨(strategy_chunking_contract.1 _ hgt).2.1,
    j, st', ss, preMsgs, hgen, hmap, hpc, hsl, hal, hcl⟩

/-! ### C1 — the scripted three-identifier run -/

theorem addToolResponses_callCount (rs : List String) (st : StratState) :
    (addToolResponses st rs).callCount = st.callCount :=
  (addToolResponses_fields rs st).2.2.1

theorem addToolResponses_callLog (rs : List String) (st : StratState) :
    (addToolResponses st rs).callLog = st.callLog :=
  (addToolResponses_fields rs st).2.2.2.1

theorem addToolResponses_toolExecLog (rs : List String) (st : StratState) :
    (addToolResponses st rs).toolExecLog = st.toolExecLog :=
  (addToolResponses_fields rs st).2.2.2.2.1

theorem addToolResponses_fetchLog (rs : List String) (st : StratState) :
    (addToolResponses st rs).fetchLog = st.fetchLog :=
  (addToolResponses_fields rs st).2.2.2.2.2.1

theorem investigationLoop_step_tools (env : StrategyEnv) (fuel : Nat)
    (st : StratState) (r : APIResponse)
    (hscr : env.script st.callCount investCallOptions = .ok r)
    (hne : r.toolCalls.isEmpty = false) :
    investigationLoop env (fuel + 1) st = investigationLoop env fuel
      (addToolResponses
        (recordToolExec (doAddMessage
          { st with callCount := st.callCount + 1,
                    callLog := st.callLog ++ [investCallOptions] }
          .assistant r.content r.toolCalls) r.toolCalls
          (executeToolCalls env.toolEnv r.toolCalls).2)
        (executeToolCalls env.toolEnv r.toolCalls).1) := by
  simp only [investigationLoop, doCallAPI, hscr, hne, Bool.false_eq_true, if_false]

theorem investigationLoop_step_done (env : StrategyEnv) (fuel : Nat)
    (st : StratState) (r : APIResponse)
    (hscr : env.script st.callCount investCallOptions = .ok r)
    (hemp : r.toolCalls.isEmpty = true) :
    investigationLoop env (fuel + 1) st = (.ok (),
      { st with callCount := st.callCount + 1,
                callLog := st.callLog ++ [investCallOptions] }) := by
  simp only [investigationLoop, doCallAPI, hscr, hemp, Bool.true_eq, if_true]

/-- **C1.** With a scripted adapter whose first tools-enabled call returns
one `get_commit_details` invocation naming three identifiers, whose
second tools-enabled call returns final text with no tool invocations,
and whose JSON-mode call returns valid StructuredSummary JSON, the
strategy (on a batch not exceeding the chunk threshold) makes exactly two
calls with `requestJson = false` and exactly one call with
`requestJson = true`, and `executeToolCalls` runs exactly once, fetching
exactly those three identifiers. -/
theorem strategy_scripted_call_counts
    (env : StrategyEnv) (commits : List GitilesCommit)
    (total relevant : Nat) (first lastc : GitilesCommit)
    (tc : ToolCall) (ids : List String) (r0 r1 r2 : APIResponse) (j : Js)
    (hlen : commits.length ≤ CHUNK_THRESHOLD)
    (h0 : ∀ opts, env.script 0 opts = .ok r0)
    (htc : r0.toolCalls = [tc])
    (hname : tc.name = "get_commit_details")
    (hdec : env.toolEnv.decodeArgs tc.arguments = .ok ids)
    (hids : ids.length = 3)
    (h1 : ∀ opts, env.script 1 opts = .ok r1)
    (hr1 : r1.toolCalls = [])
    (h2 : ∀ opts, env.script 2 opts = .ok r2)
    (hjson : jsonParse r2.content = some j)
    (hshape : isStructuredSummaryJs j = true) :
    ∃ st', generateSummaryWithStrategy env commits total relevant first lastc =
        (.ok j, st') ∧
      (st'.callLog.filter (fun o => !o.requestJson)).length = 2 ∧
      (st'.callLog.filter (fun o => o.requestJson)).length = 1 ∧
      st'.toolExecLog = [[tc]] ∧
      st'.fetchLog = [ids] := by
  have hle : ¬(commits.length > CHUNK_THRESHOLD) := by omega
  have hexec2 : (executeToolCalls env.toolEnv [tc]).2 = [ids] := by
    simp only [executeToolCalls, execToolCall, hname, if_pos]
    simp only [hdec]
    rcases hf : fetchMultipleCommitDetails env.toolEnv.fetchOne ids with e | pr
    · simp [hf]
    · obtain ⟨ds, dn⟩ := pr
      simp [hf]
  set st0 := doAddMessage (doReset initState) .user
    (env.agenticPrompt commits total relevant (some first) (some lastc)) [] with hst0
  have hc0 : st0.callCount = 0 := rfl
  have hne0 : r0.toolCalls.isEmpty = false := by rw [htc]; rfl
  have hstep1 := investigationLoop_step_tools env 9 st0 r0 (by rw [hc0]; exact h0 _) hne0
  set st1 := addToolResponses
    (recordToolExec (doAddMessage
      { st0 with callCount := st0.callCount + 1,
                 callLog := st0.callLog ++ [investCallOptions] }
      .assistant r0.content r0.toolCalls) r0.toolCalls
      (executeToolCalls env.toolEnv r0.toolCalls).2)
    (executeToolCalls env.toolEnv r0.toolCalls).1 with hst1
  have hc1 : st1.callCount = 1 := by
    rw [hst1, addToolResponses_callCount]
    rfl
  have hstep2 := investigationLoop_step_done env 8 st1 r1 (by rw [hc1]; exact h1 _) (by rw [hr1]; rfl)
  have hloop : investigationLoop env MAX_ITERATIONS st0 = (.ok (),
      { st1 with callCount := st1.callCount + 1,
                 callLog := st1.callLog ++ [investCallOptions] }) := by
    rw [MAX_ITERATIONS, show (10 : Nat) = 9 + 1 from rfl, hstep1,
      show (9 : Nat) = 8 + 1 from rfl, hstep2]
  have hgen := generateSummary_nonchunked env commits total relevant first lastc
    _ hle hloop
  have hc2 : (doAddMessage
      { st1 with
        callCount := st1.callCount + 1,
        callLog := st1.callLog ++ [investCallOptions] }
      .user env.finalJsonPrompt []).callCount = 2 := by
    simp [doAddMessage, hc1]
  have hfin := finalJsonStep_ok env
    { st1 with callCount := st1.callCount + 1,
               callLog := st1.callLog ++ [investCallOptions] } r2 j
    (by rw [hc2]; exact h2 _) hjson
  rw [hfin] at hgen
  refine ⟨_, hgen, ?_, ?_, ?_, ?_⟩
  · have hcl1 : st1.callLog = [investCallOptions] := by
      rw [hst1, addToolResponses_callLog]
      rfl
    simp [doAddMessage, hcl1, investCallOptions, finalJsonOptions]
  · have hcl1 : st1.callLog = [investCallOptions] := by
      rw [hst1, addToolResponses_callLog]
      rfl
    simp [doAddMessage, hcl1, investCallOptions, finalJsonOptions]
  · show st1.toolExecLog = [[tc]]
    rw [hst1, addToolResponses_toolExecLog]
    show st0.toolExecLog ++ [r0.toolCalls] = [[tc]]
    rw [htc]
    rfl
  · show st1.fetchLog = [ids]
    rw [hst1, addToolResponses_fetchLog]
    show st0.fetchLog ++ (executeToolCalls env.toolEnv r0.toolCalls).2 = [ids]
    rw [htc, hexec2]
    rfl

/-- Witness for C1 at a concrete scripted adapter. -/
theorem strategy_scripted_call_counts_witness :
    ∃ st', generateSummaryWithStrategy
      ⟨⟨fun _ => .ok ["a", "b", "c"], fun h => .ok ⟨h, "", "", "", 0, 0, 0, []⟩,
        fun _ => ""⟩,
       fun n _ => if n = 0 then .ok ⟨"thinking", [⟨"id1", "get_commit_details", "args"⟩]⟩
         else if n = 1 then .ok ⟨"done", []⟩
         else .ok ⟨"\x7b\"title\":\"t\",\"overview\":\"o\",\"categories\":[]\x7d", []⟩,
       fun _ _ _ _ _ => "", fun _ _ _ _ _ => "", ""⟩
      [] 0 0 ⟨"", "", [], ⟨"", "", ""⟩, ⟨"", "", ""⟩, "", []⟩
      ⟨"", "", [], ⟨"", "", ""⟩, ⟨"", "", ""⟩, "", []⟩ =
      (.ok (.obj [("title", .str "t"), ("overview", .str "o"), ("categories", .arr [])]),
       st') ∧
      (st'.callLog.filter (fun o => !o.requestJson)).length = 2 ∧
      (st'.callLog.filter (fun o => o.requestJson)).length = 1 ∧
      st'.toolExecLog = [[⟨"id1", "get_commit_details", "args"⟩]] ∧
      st'.fetchLog = [["a", "b", "c"]] := by
  exact strategy_scripted_call_counts _ [] 0 0 _ _
    ⟨"id1", "get_commit_details", "args"⟩ ["a", "b", "c"]
    ⟨"thinking", [⟨"id1", "get_commit_details", "args"⟩]⟩ ⟨"done", []⟩
    ⟨"\x7b\"title\":\"t\",\"overview\":\"o\",\"categories\":[]\x7d", []⟩
    (.obj [("title", .str "t"), ("overview", .str "o"), ("categories", .arr [])])
    (by decide) (fun _ => rfl) rfl rfl rfl rfl (fun _ => rfl) rfl (fun _ => rfl) rfl rfl

/-! ### C4 — tool-fetch failures are non-fatal -/

/-- **C4.** A tool invocation whose underlying detail fetch throws does
not abort the investigation loop: `executeToolCalls` catches the failure
and yields the error string, which is appended to the conversation as a
tool turn, after which the loop proceeds to its next adapter call; and a
generation run whose adapter never throws and whose JSON-mode response
parses returns a summary for **every** fetch behaviour — the fetch
failure is never propagated as an exception out of the generation call. -/
theorem tool_failure_nonfatal_contract :
    (∀ (env : StrategyEnv) (fuel : Nat) (st : StratState) (tc : ToolCall)
        (ids : List String) (e : String) (r : APIResponse),
      env.script st.callCount investCallOptions = .ok r →
      r.toolCalls = [tc] →
      tc.name = "get_commit_details" →
      env.toolEnv.decodeArgs tc.arguments = .ok ids →
      fetchMultipleCommitDetails env.toolEnv.fetchOne ids = .error e →
      ∃ st1, investigationLoop env (fuel + 1) st = investigationLoop env fuel st1 ∧
        st1.messages = st.messages ++
          [⟨.assistant, r.content, [tc]⟩,
           ⟨.tool, "Tool call error for get_commit_details: " ++ e, []⟩] ∧
        st1.callCount = st.callCount + 1 ∧
        st1.fetchLog = st.fetchLog ++ [ids]) ∧
    (∀ (env : StrategyEnv) (commits : List GitilesCommit)
        (total relevant : Nat) (first lastc : GitilesCommit),
      ScriptTotal env →
      (∀ n opts r, opts.requestJson = true → env.script n opts = .ok r →
        jsonParse r.content ≠ none) →
      ∃ j st', generateSummaryWithStrategy env commits total relevant first lastc =
        (.ok j, st')) := by
  constructor
  · intro env fuel st tc ids e r hscr htc hname hdec hfetch
    have hne : r.toolCalls.isEmpty = false := by rw [htc]; rfl
    have hexec : executeToolCalls env.toolEnv r.toolCalls =
        (["Tool call error for get_commit_details: " ++ e], [ids]) := by
      rw [htc]
      simp only [executeToolCalls, execToolCall, hname, if_pos, hdec, hfetch]
      simp
    refine ⟨_, investigationLoop_step_tools env fuel st r hscr hne, ?_, ?_, ?_⟩
    · rw [addToolResponses_fields _ _ |>.1]
      simp only [hexec, recordToolExec, doAddMessage, htc]
      rw [htc] at hexec
      simp [hexec]
    · rw [addToolResponses_callCount]
      rfl
    · rw [addToolResponses_fetchLog]
      simp only [hexec, recordToolExec, doAddMessage]
  · intro env commits total relevant first lastc htot hjson
    by_cases hgt : commits.length > CHUNK_THRESHOLD
    · obtain ⟨ss, st1, h1⟩ :=
        processChunks_total env htot (chunksOf CHUNK_SIZE commits) (doReset initState)
      obtain ⟨rj, hrj⟩ := htot
        (doAddMessage (doAddMessage (doReset st1) .user
          (env.finalChunksPrompt ss total relevant first lastc) [])
          .user env.finalJsonPrompt []).callCount finalJsonOptions
      obtain ⟨j, hj⟩ := Option.ne_none_iff_exists'.mp (hjson _ _ _ rfl hrj)
      have hfin := finalJsonStep_ok env (doAddMessage (doReset st1) .user
        (env.finalChunksPrompt ss total relevant first lastc) []) rj j hrj hj
      have hgen := generateSummary_chunked env commits total relevant first lastc
        ss st1 hgt h1
      rw [hfin] at hgen
      exact ⟨j, _, hgen⟩
    · obtain ⟨stL, hloop⟩ := investigationLoop_total env
        (fun n => htot n investCallOptions) MAX_ITERATIONS
        (doAddMessage (doReset initState) .user
          (env.agenticPrompt commits total relevant (some first) (some lastc)) [])
      obtain ⟨rj, hrj⟩ := htot
        (doAddMessage stL .user env.finalJsonPrompt []).callCount finalJsonOptions
      obtain ⟨j, hj⟩ := Option.ne_none_iff_exists'.mp (hjson _ _ _ rfl hrj)
      have hfin := finalJsonStep_ok env stL rj j hrj hj
      have hgen := generateSummary_nonchunked env commits total relevant first lastc
        stL hgt hloop
      rw [hfin] at hgen
      exact ⟨j, _, hgen⟩

/-- Witness for C4: a concrete loop step whose single tool invocation's
fetch fails, and a concrete full run with an always-failing fetch that
still returns a summary. -/
theorem tool_failure_nonfatal_contract_witness :
    (∃ st1, investigationLoop
      ⟨⟨fun _ => .ok ["x"], fun _ => .error "network down", fun _ => ""⟩,
       fun n _ => if n = 0 then .ok ⟨"look", [⟨"i", "get_commit_details", "a"⟩]⟩
         else .ok ⟨"done", []⟩,
       fun _ _ _ _ _ => "", fun _ _ _ _ _ => "", ""⟩ (9 + 1) initState =
      investigationLoop
      ⟨⟨fun _ => .ok ["x"], fun _ => .error "network down", fun _ => ""⟩,
       fun n _ => if n = 0 then .ok ⟨"look", [⟨"i", "get_commit_details", "a"⟩]⟩
         else .ok ⟨"done", []⟩,
       fun _ _ _ _ _ => "", fun _ _ _ _ _ => "", ""⟩ 9 st1 ∧
      st1.messages = initState.messages ++
        [⟨.assistant, "look", [⟨"i", "get_commit_details", "a"⟩]⟩,
         ⟨.tool, "Tool call error for get_commit_details: " ++ "network down", []⟩] ∧
      st1.callCount = initState.callCount + 1 ∧
      st1.fetchLog = initState.fetchLog ++ [["x"]]) ∧
    (∃ j st', generateSummaryWithStrategy
      ⟨⟨fun _ => .ok ["x"], fun _ => .error "network down", fun _ => ""⟩,
       fun n opts => if opts.requestJson then .ok ⟨"1", []⟩
         else if n = 0 then .ok ⟨"look", [⟨"i", "get_commit_details", "a"⟩]⟩
         else .ok ⟨"done", []⟩,
       fun _ _ _ _ _ => "", fun _ _ _ _ _ => "", ""⟩
      [] 0 0 ⟨"", "", [], ⟨"", "", ""⟩, ⟨"", "", ""⟩, "", []⟩
      ⟨"", "", [], ⟨"", "", ""⟩, ⟨"", "", ""⟩, "", []⟩ = (.ok j, st')) := by
  constructor
  · exact tool_failure_nonfatal_contract.1 _ 9 initState
      ⟨"i", "get_commit_details", "a"⟩ ["x"] "network down"
      ⟨"look", [⟨"i", "get_commit_details", "a"⟩]⟩ rfl rfl rfl rfl rfl
  · refine tool_failure_nonfatal_contract.2 _ [] 0 0 _ _ ?_ ?_
    · intro n opts
      by_cases hq : opts.requestJson = true
      · exact ⟨⟨"1", []⟩, by simp [hq]⟩
      · by_cases hn : n = 0
        · exact ⟨⟨"look", [⟨"i", "get_commit_details", "a"⟩]⟩, by simp [hq, hn]⟩
        · exact ⟨⟨"done", []⟩, by simp [hq, hn]⟩
    · intro n opts r hrq hr
      simp only [hrq, if_true] at hr
      injection hr with hr
      rw [← hr]
      intro hcon
      rw [show jsonParse "1" = some (.num "1") from rfl] at hcon
      cases hcon

/-! ### C7 — the final JSON-mode parse -/

/-- **C7 (amended).** When the final JSON-mode call's text fails to parse
as JSON (e.g. the literal `not json`), the generation call raises
`MalformedResponseError` (the `SyntaxError` of `JSON.parse`), returns no
summary, and the orchestration layer does not retry the JSON-mode call:
the run makes exactly one `requestJson` call, as its last call.  (Text
that is valid JSON but not of the StructuredSummary shape is *not*
rejected at this layer — see the counterexample.) -/
theorem final_json_parse_failure_contract
    (env : StrategyEnv) (commits : List GitilesCommit)
    (total relevant : Nat) (first lastc : GitilesCommit)
    (htot : ScriptTotal env)
    (hbad : ∀ n opts r, opts.requestJson = true → env.script n opts = .ok r →
      jsonParse r.content = none) :
    ∃ c st', generateSummaryWithStrategy env commits total relevant first lastc =
      (.error (.malformedResponse c), st') ∧
      jsonParse c = none ∧
      (st'.callLog.filter (fun o => o.requestJson)).length = 1 ∧
      st'.callLog.getLast? = some finalJsonOptions := by
  by_cases hgt : commits.length > CHUNK_THRESHOLD
  · obtain ⟨ss, st1, h1⟩ :=
      processChunks_total env htot (chunksOf CHUNK_SIZE commits) (doReset initState)
    obtain ⟨hsslen, hpc1, calls1, hcl1, hcf1⟩ :=
      processChunks_ok env (chunksOf CHUNK_SIZE commits) _ ss st1 h1
    obtain ⟨rj, hrj⟩ := htot
      (doAddMessage (doAddMessage (doReset st1) .user
        (env.finalChunksPrompt ss total relevant first lastc) [])
        .user env.finalJsonPrompt []).callCount finalJsonOptions
    have hj : jsonParse rj.content = none := hbad _ _ _ rfl hrj
    have hfin := finalJsonStep_err env (doAddMessage (doReset st1) .user
      (env.finalChunksPrompt ss total relevant first lastc) []) rj hrj hj
    have hgen := generateSummary_chunked env commits total relevant first lastc
      ss st1 hgt h1
    rw [hfin] at hgen
    refine ⟨rj.content, _, hgen, hj, ?_, ?_⟩
    · show (((doAddMessage (doAddMessage (doReset st1) .user
        (env.finalChunksPrompt ss total relevant first lastc) [])
        .user env.finalJsonPrompt []).callLog ++ [finalJsonOptions]).filter
          (fun o => o.requestJson)).length = 1
      have hcl : (doAddMessage (doAddMessage (doReset st1) .user
          (env.finalChunksPrompt ss total relevant first lastc) [])
          .user env.finalJsonPrompt []).callLog = st1.callLog := rfl
      rw [hcl, List.filter_append, hcl1]
      have : (((doReset initState).callLog ++ calls1).filter
          (fun o => o.requestJson)) = [] := by
        rw [List.filter_eq_nil]
        intro a ha
        simp only [doReset, initState, List.nil_append] at ha
        rw [hcf1 a ha]
        simp
      rw [this]
      rfl
    · show ((doAddMessage (doAddMessage (doReset st1) .user
        (env.finalChunksPrompt ss total relevant first lastc) [])
        .user env.finalJsonPrompt []).callLog ++ [finalJsonOptions]).getLast? =
        some finalJsonOptions
      simp
  · obtain ⟨stL, hloop⟩ := investigationLoop_total env
      (fun n => htot n investCallOptions) MAX_ITERATIONS
      (doAddMessage (doReset initState) .user
        (env.agenticPrompt commits total relevant (some first) (some lastc)) [])
    obtain ⟨k, msgs, hk, hclL, _, _, _, _⟩ :=
      investigationLoop_spec env MAX_ITERATIONS _ _ _ hloop
    obtain ⟨rj, hrj⟩ := htot
      (doAddMessage stL .user env.finalJsonPrompt []).callCount finalJsonOptions
    have hj : jsonParse rj.content = none := hbad _ _ _ rfl hrj
    have hfin := finalJsonStep_err env stL rj hrj hj
    have hgen := generateSummary_nonchunked env commits total relevant first lastc
      stL hgt hloop
    rw [hfin] at hgen
    refine ⟨rj.content, _, hgen, hj, ?_, ?_⟩
    · show (((doAddMessage stL .user env.finalJsonPrompt []).callLog ++
        [finalJsonOptions]).filter (fun o => o.requestJson)).length = 1
      have hcl : (doAddMessage stL .user env.finalJsonPrompt []).callLog =
        stL.callLog := rfl
      rw [hcl, List.filter_append, hclL]
      have : (((doAddMessage (doReset initState) .user
          (env.agenticPrompt commits total relevant (some first) (some lastc))
          []).callLog ++ List.replicate k investCallOptions).filter
          (fun o => o.requestJson)) = [] := by
        rw [List.filter_eq_nil]
        intro a ha
        simp only [doAddMessage, doReset, initState, List.nil_append] at ha
        rw [List.eq_of_mem_replicate ha]
        simp [investCallOptions]
      rw [this]
      rfl
    · show ((doAddMessage stL .user env.finalJsonPrompt []).callLog ++
        [finalJsonOptions]).getLast? = some finalJsonOptions
      simp

/-- Counterexample to C7 as stated: the final JSON-mode call answering
`42` — valid JSON that is *not* of the StructuredSummary shape — is
returned as the generation result without any `MalformedResponseError`:
the `as StructuredSummary` cast validates nothing. -/
theorem final_json_shape_not_validated :
    (generateSummaryWithStrategy
      ⟨⟨fun _ => .ok [], fun _ => .error "unused", fun _ => ""⟩,
       fun _ opts => if opts.requestJson then .ok ⟨"42", []⟩ else .ok ⟨"done", []⟩,
       fun _ _ _ _ _ => "", fun _ _ _ _ _ => "", ""⟩
      [] 0 0 ⟨"", "", [], ⟨"", "", ""⟩, ⟨"", "", ""⟩, "", []⟩
      ⟨"", "", [], ⟨"", "", ""⟩, ⟨"", "", ""⟩, "", []⟩).1 = .ok (.num "42") ∧
    isStructuredSummaryJs (.num "42") = false := by
  exact ⟨rfl, rfl⟩

/-- Witness for the amended C7: the JSON-mode call answers the literal
`not json`, and the run fails with `MalformedResponseError`, the
JSON-mode call being the single, last, unretried call. -/
theorem final_json_parse_failure_contract_witness :
    ∃ c st', generateSummaryWithStrategy
      ⟨⟨fun _ => .ok [], fun _ => .error "unused", fun _ => ""⟩,
       fun _ opts => if opts.requestJson then .ok ⟨"not json", []⟩
         else .ok ⟨"done", []⟩,
       fun _ _ _ _ _ => "", fun _ _ _ _ _ => "", ""⟩
      [] 0 0 ⟨"", "", [], ⟨"", "", ""⟩, ⟨"", "", ""⟩, "", []⟩
      ⟨"", "", [], ⟨"", "", ""⟩, ⟨"", "", ""⟩, "", []⟩ =
      (.error (.malformedResponse c), st') ∧
      jsonParse c = none ∧
      (st'.callLog.filter (fun o => o.requestJson)).length = 1 ∧
      st'.callLog.getLast? = some finalJsonOptions := by
  refine final_json_parse_failure_contract _ [] 0 0 _ _ ?_ ?_
  · intro n opts
    by_cases hq : opts.requestJson = true
    · exact ⟨⟨"not json", []⟩, by simp [hq]⟩
    · exact ⟨⟨"done", []⟩, by simp [hq]⟩
  · intro n opts r hrq hr
    simp only [hrq, if_true] at hr
    injection hr with hr
    rw [← hr]
    rfl

/-! ### C9: Nexos streaming tool-call accumulator -/

theorem keyEntry_nil (k : Nat) : keyEntry [] k = none := rfl

theorem keyEntry_cons (e : Nat × PartialToolCall) (m : List (Nat × PartialToolCall))
    (k : Nat) :
    keyEntry (e :: m) k = if e.1 = k then some e.2 else keyEntry m k := by
  by_cases h : e.1 = k <;> simp [keyEntry, List.find?, h]

theorem keyEntry_append_single_of_some (m : List (Nat × PartialToolCall)) (i k : Nat)
    (p q : PartialToolCall) (h : keyEntry m k = some q) :
    keyEntry (m ++ [(i, p)]) k = some q := by
  induction m with
  | nil => simp [keyEntry_nil] at h
  | cons e m ih =>
    rw [keyEntry_cons] at h
    by_cases he : e.1 = k
    · rw [if_pos he] at h
      injection h with h
      simp [List.cons_append, keyEntry_cons, he, h]
    · rw [if_neg he] at h
      simp [List.cons_append, keyEntry_cons, he, ih h]

theorem keyEntry_append_single_of_none (m : List (Nat × PartialToolCall)) (i k : Nat)
    (p : PartialToolCall) (h : keyEntry m k = none) :
    keyEntry (m ++ [(i, p)]) k = if i = k then some p else none := by
  induction m with
  | nil => simp [keyEntry_cons, keyEntry_nil]
  | cons e m ih =>
    rw [keyEntry_cons] at h
    by_cases he : e.1 = k
    · simp [he] at h
    · simp only [he, if_neg he] at h
      simp [List.cons_append, keyEntry_cons, he, ih h]

theorem keyEntry_isSome_of_any (m : List (Nat × PartialToolCall)) (i : Nat)
    (h : m.any (fun e => e.1 = i) = true) : ∃ p, keyEntry m i = some p := by
  induction m with
  | nil => simp at h
  | cons e m ih =>
    by_cases he : e.1 = i
    · exact ⟨e.2, by simp [keyEntry_cons, he]⟩
    · rw [List.any_cons] at h
      have h2 : m.any (fun e => e.1 = i) = true := by
        rcases Bool.or_eq_true_iff.1 h with h1 | h1
        · exact absurd (of_decide_eq_true h1) he
        · exact h1
      rcases ih h2 with ⟨p, hp⟩
      exact ⟨p, by simp [keyEntry_cons, he, hp]⟩

theorem keyEntry_eq_none_of_not_any (m : List (Nat × PartialToolCall)) (i : Nat)
    (h : m.any (fun e => e.1 = i) = false) : keyEntry m i = none := by
  induction m with
  | nil => rfl
  | cons e m ih =>
    rw [List.any_cons, Bool.or_eq_false_iff] at h
    have he : ¬ e.1 = i := by simpa using h.1
    simp [keyEntry_cons, he, ih h.2]

theorem keyEntry_map_update (m : List (Nat × PartialToolCall)) (i k : Nat)
    (d : NexosDeltaToolCall) :
    keyEntry (m.map fun e => if e.1 = i then (e.1, applyFrag e.2 d) else e) k =
      if i = k then (keyEntry m k).map (fun p => applyFrag p d) else keyEntry m k := by
  induction m with
  | nil => by_cases hik : i = k <;> simp [keyEntry_nil, hik]
  | cons e m ih =>
    by_cases hik : i = k
    · subst hik
      by_cases hei : e.1 = i
      · simp [keyEntry_cons, hei]
      · simp [keyEntry_cons, hei, ih]
    · have hik2 : ¬ k = i := fun h => hik h.symm
      by_cases hek : e.1 = k
      · have hei : ¬ e.1 = i := fun h => hik (by rw [← h, hek])
        simp [keyEntry_cons, hek, hei, hik, hik2]
      · by_cases hei : e.1 = i <;> simp [keyEntry_cons, hek, hei, hik, hik2, ih]

theorem keyEntry_applyDelta (m : List (Nat × PartialToolCall)) (d : NexosDeltaToolCall)
    (k : Nat) :
    keyEntry (applyDelta m d) k =
      if d.index.getD 0 = k then
        some (applyFrag ((keyEntry m k).getD ⟨none, none, none⟩) d)
      else keyEntry m k := by
  unfold applyDelta
  cases hany : m.any (fun e => e.1 = d.index.getD 0)
  · simp only [hany, Bool.false_eq_true, if_false]
    rw [keyEntry_map_update]
    have hnone : keyEntry m (d.index.getD 0) = none := keyEntry_eq_none_of_not_any m _ hany
    by_cases hik : d.index.getD 0 = k
    · subst hik
      rw [keyEntry_append_single_of_none m _ _ _ hnone]
      simp [hnone]
    · have hik2 : ¬ (d.index.getD 0 = k) := hik
      simp only [if_neg hik2]
      cases hk : keyEntry m k with
      | none =>
        rw [keyEntry_append_single_of_none m _ _ _ hk]
        simp [hik2]
      | some q =>
        rw [keyEntry_append_single_of_some m _ _ _ _ hk]
  · simp only [hany, if_true]
    rw [keyEntry_map_update]
    by_cases hik : d.index.getD 0 = k
    · subst hik
      rcases keyEntry_isSome_of_any m _ hany with ⟨p, hp⟩
      simp [hp]
    · simp [hik]

theorem entrySpec_some (p : PartialToolCall) (fs : List NexosDeltaToolCall) :
    entrySpec (some p) fs = some (fs.foldl applyFrag p) := by
  cases fs <;> rfl

theorem entrySpec_none_nil : entrySpec none [] = none := rfl

theorem entrySpec_none_cons (d : NexosDeltaToolCall) (fs : List NexosDeltaToolCall) :
    entrySpec none (d :: fs) =
      some ((d :: fs).foldl applyFrag ⟨none, none, none⟩) := rfl

theorem foldl_applyDelta_keyEntry (ds : List NexosDeltaToolCall) :
    ∀ (m : List (Nat × PartialToolCall)) (k : Nat),
      keyEntry (ds.foldl applyDelta m) k = entrySpec (keyEntry m k) (deltasFor k ds) := by
  induction ds with
  | nil =>
    intro m k
    simp only [List.foldl_nil, deltasFor, List.filter_nil]
    cases h : keyEntry m k
    · rw [entrySpec_none_nil]
    · rw [entrySpec_some]
      rfl
  | cons d ds ih =>
    intro m k
    rw [List.foldl_cons, ih, keyEntry_applyDelta]
    by_cases hik : d.index.getD 0 = k
    · have hd : deltasFor k (d :: ds) = d :: deltasFor k ds := by
        simp [deltasFor, List.filter_cons, hik]
      rw [hd]
      simp only [hik, if_true]
      rw [entrySpec_some]
      cases h : keyEntry m k
      · rw [entrySpec_none_cons]
        rfl
      · rw [entrySpec_some]
        rfl
    · have hd : deltasFor k (d :: ds) = deltasFor k ds := by
        simp [deltasFor, List.filter_cons, hik]
      rw [hd]
      simp only [hik, if_false]

theorem applyFrag_fnArgs (p : PartialToolCall) (d : NexosDeltaToolCall) :
    (applyFrag p d).fnArgs =
      match argPart d with
      | some s => some (p.fnArgs.getD "" ++ s)
      | none => p.fnArgs := by
  rcases hid : d.id with _ | i <;> rcases hnm : d.name with _ | n <;>
    rcases hargs : d.fnArgs with _ | a <;>
      simp only [applyFrag, argPart, hid, hnm, hargs] <;> split_ifs <;> rfl

theorem foldl_applyFrag_fnArgs (fs : List NexosDeltaToolCall) :
    ∀ p : PartialToolCall,
      (fs.foldl applyFrag p).fnArgs =
        if fs.filterMap argPart = [] then p.fnArgs
        else some (p.fnArgs.getD "" ++ concatStrs (fs.filterMap argPart)) := by
  induction fs with
  | nil => intro p; simp
  | cons d fs ih =>
    intro p
    rw [List.foldl_cons, ih]
    rcases h : argPart d with _ | s
    · have hargs : (applyFrag p d).fnArgs = p.fnArgs := by rw [applyFrag_fnArgs, h]
      simp only [List.filterMap_cons, h, hargs]
    · have hargs : (applyFrag p d).fnArgs = some (p.fnArgs.getD "" ++ s) := by
        rw [applyFrag_fnArgs, h]
      simp only [List.filterMap_cons, h, hargs]
      by_cases hrest : fs.filterMap argPart = []
      · simp [hrest, concatStrs]
      · simp [hrest, concatStrs, String.append_assoc]

theorem argFragsFor_eq (k : Nat) (ds : List NexosDeltaToolCall) :
    (deltasFor k ds).filterMap argPart = argFragsFor k ds := by
  simp only [deltasFor, argFragsFor]
  induction ds with
  | nil => rfl
  | cons d ds ih =>
    by_cases h : d.index.getD 0 = k
    · rcases ha : argPart d with _ | s <;>
        simp [List.filter_cons, List.filterMap_cons, h, ha, ih]
    · simp [List.filter_cons, List.filterMap_cons, h, ih]

theorem map_fst_update (m : List (Nat × PartialToolCall)) (i : Nat)
    (d : NexosDeltaToolCall) :
    (m.map fun e => if e.1 = i then (e.1, applyFrag e.2 d) else e).map Prod.fst =
      m.map Prod.fst := by
  induction m with
  | nil => rfl
  | cons e m ih => by_cases he : e.1 = i <;> simp [he, ih]

theorem applyDelta_keys_nodup (m : List (Nat × PartialToolCall))
    (d : NexosDeltaToolCall) (h : (m.map Prod.fst).Nodup) :
    ((applyDelta m d).map Prod.fst).Nodup := by
  unfold applyDelta
  cases hany : m.any (fun e => e.1 = d.index.getD 0)
  · simp only [hany, Bool.false_eq_true, if_false]
    rw [map_fst_update, List.map_append, List.map_singleton]
    rw [List.nodup_append]
    refine ⟨h, by simp, ?_⟩
    intro a ha hb
    rw [List.mem_singleton] at hb
    subst hb
    rw [List.mem_map] at ha
    rcases ha with ⟨e, hem, hae⟩
    rw [List.any_eq_false] at hany
    have hne := hany e hem
    simp only [decide_eq_true_eq] at hne
    exact hne hae
  · simp only [hany, if_true]
    rw [map_fst_update]
    exact h

theorem accumulate_keys_nodup (ds : List NexosDeltaToolCall) :
    ∀ m : List (Nat × PartialToolCall), (m.map Prod.fst).Nodup →
      ((ds.foldl applyDelta m).map Prod.fst).Nodup := by
  induction ds with
  | nil => intro m h; exact h
  | cons d ds ih =>
    intro m h
    rw [List.foldl_cons]
    exact ih _ (applyDelta_keys_nodup m d h)

theorem keyEntry_of_mem_nodup (m : List (Nat × PartialToolCall))
    (h : (m.map Prod.fst).Nodup) (k : Nat) (p : PartialToolCall)
    (hm : (k, p) ∈ m) : keyEntry m k = some p := by
  induction m with
  | nil => simp at hm
  | cons e m ih =>
    rw [List.map_cons, List.nodup_cons] at h
    rcases List.mem_cons.1 hm with hm | hm
    · rw [← hm, keyEntry_cons, if_pos rfl]
    · have he : ¬ e.1 = k := by
        intro hek
        exact h.1 (hek ▸ List.mem_map.2 ⟨(k, p), hm, rfl⟩)
      rw [keyEntry_cons, if_neg he]
      exact ih h.2 hm

theorem mem_finalize (m : List (Nat × PartialToolCall)) (tc : ToolCall)
    (h : tc ∈ finalizeToolCalls m) :
    ∃ k, (k, (⟨some tc.id, some tc.name, some tc.arguments⟩ : PartialToolCall)) ∈ m ∧
      tc.id ≠ "" ∧ tc.name ≠ "" ∧ tc.arguments ≠ "" := by
  unfold finalizeToolCalls at h
  rw [List.mem_filterMap] at h
  rcases h with ⟨e, hem, he⟩
  rcases e with ⟨k, oid, onm, oargs⟩
  rcases oid with _ | i
  · simp at he
  rcases onm with _ | n
  · simp at he
  rcases oargs with _ | a
  · simp at he
  simp only at he
  by_cases hc : (i ≠ "" && n ≠ "" && a ≠ "") = true
  · rw [if_pos hc] at he
    injection he with he
    simp only [Bool.and_eq_true, decide_eq_true_eq] at hc
    refine ⟨k, ?_, ?_, ?_, ?_⟩
    · rw [← he]
      exact hem
    · rw [← he]; exact hc.1.1
    · rw [← he]; exact hc.1.2
    · rw [← he]; exact hc.2
  · rw [if_neg hc] at he
    exact absurd he (by simp)

theorem accumulate_fnArgs (deltas : List NexosDeltaToolCall) (k : Nat)
    (p : PartialToolCall)
    (h : keyEntry (accumulateToolCalls deltas) k = some p) :
    p.fnArgs = if argFragsFor k deltas = [] then none
      else some (concatStrs (argFragsFor k deltas)) := by
  rw [accumulateToolCalls, foldl_applyDelta_keyEntry deltas [] k, keyEntry_nil] at h
  cases hd : deltasFor k deltas with
  | nil =>
    rw [hd, entrySpec_none_nil] at h
    exact absurd h (by simp)
  | cons d fs =>
    rw [hd, entrySpec_none_cons] at h
    injection h with h
    rw [← h, foldl_applyFrag_fnArgs]
    rw [show (d :: fs) = deltasFor k deltas from hd.symm, argFragsFor_eq]
    cases hf : argFragsFor k deltas with
    | nil => simp
    | cons s ss => simp [concatStrs]

/-- **C9.** `NexosAdapter.callAPI` stream reconstruction (part_002 lines
437-511): streamed tool-call fragments are accumulated in a map keyed by
the fragment's `index ?? 0`; for every key the accumulated `arguments`
text is `none` until a nonempty fragment arrives and thereafter exactly
the in-order concatenation of the nonempty argument fragments delivered
for that key; and once the whole stream is consumed a `ToolCall` is
emitted only for keys whose `id`, `name` and `arguments` are all
complete (truthy), its arguments being that full concatenation — so no
partially accumulated tool call is returned to the orchestration layer. -/
theorem nexos_stream_accumulator_contract (deltas : List NexosDeltaToolCall) :
    (∀ tc ∈ nexosStreamToolCalls deltas,
        tc.id ≠ "" ∧ tc.name ≠ "" ∧ tc.arguments ≠ "") ∧
    (∀ k p, keyEntry (accumulateToolCalls deltas) k = some p →
        p.fnArgs = if argFragsFor k deltas = [] then none
          else some (concatStrs (argFragsFor k deltas))) ∧
    (∀ tc ∈ nexosStreamToolCalls deltas, ∃ k,
        keyEntry (accumulateToolCalls deltas) k =
          some ⟨some tc.id, some tc.name, some tc.arguments⟩ ∧
        argFragsFor k deltas ≠ [] ∧
        tc.arguments = concatStrs (argFragsFor k deltas)) := by
  have hnodup : ((accumulateToolCalls deltas).map Prod.fst).Nodup :=
    accumulate_keys_nodup deltas [] (by simp)
  refine ⟨?_, accumulate_fnArgs deltas, ?_⟩
  · intro tc htc
    rcases mem_finalize _ tc htc with ⟨k, _, hid, hnm, hargs⟩
    exact ⟨hid, hnm, hargs⟩
  · intro tc htc
    rcases mem_finalize _ tc htc with ⟨k, hmem, hid, hnm, hargs⟩
    have hkey := keyEntry_of_mem_nodup _ hnodup k _ hmem
    have hfa := accumulate_fnArgs deltas k _ hkey
    by_cases hnil : argFragsFor k deltas = []
    · rw [if_pos hnil] at hfa
      exact absurd hfa (by simp)
    · rw [if_neg hnil] at hfa
      exact ⟨k, hkey, hnil, by simpa using hfa⟩

/-- Concrete run for C9: index 0 receives its arguments in two fragments
that are concatenated in arrival order; index 1 never receives a
function name, so no tool call is emitted for it. -/
theorem nexos_stream_accumulator_contract_witness :
    nexosStreamToolCalls
        [⟨some 0, some "call_1", some "fetch_commit_details", some "comm"⟩,
         ⟨some 0, none, none, some "its"⟩,
         ⟨some 1, some "call_2", none, none⟩] =
      [⟨"call_1", "fetch_commit_details", "commits"⟩] ∧
    ((⟨"call_1", "fetch_commit_details", "commits"⟩ : ToolCall).id ≠ "" ∧
     (⟨"call_1", "fetch_commit_details", "commits"⟩ : ToolCall).name ≠ "" ∧
     (⟨"call_1", "fetch_commit_details", "commits"⟩ : ToolCall).arguments ≠ "") :=
  ⟨by decide,
   (nexos_stream_accumulator_contract
       [⟨some 0, some "call_1", some "fetch_commit_details", some "comm"⟩,
        ⟨some 0, none, none, some "its"⟩,
        ⟨some 1, some "call_2", none, none⟩]).1
     ⟨"call_1", "fetch_commit_details", "commits"⟩ (by decide)⟩

end ChromiumDigest
